import Mathlib

/-!
Verification development for a minimal reactive rendering runtime
(virtual-tree diffing renderer plus dependency-tracking reactive layer).

The definitions below are a shallow embedding of the runtime's source:
  * the node-descriptor constructor and renderer
    (h, mount, patch, patchProps, patchChildren, hasKeyedChildren,
    patchUnkeyedChildren, patchKeyedChildren, findAnchor),
  * the reactive layer (track, trigger, the reactive proxy get/set
    handlers, and effect).

The external DOM backend is modelled explicitly: a document is a finite
map from node ids to nodes, and every backend call both updates the
document and is recorded in an operation trace that the theorems
inspect.  Stateful JS code is modelled by explicit state passing; a JS
exception is modelled by an Option result (none = the call threw); the
side effects performed before a throw are retained.
-/

namespace CleanVue

/-- A JS property value as used by the runtime: strings, numbers, or
functions.  Functions are compared by identity, modelled by an id. -/
inductive PVal where
  | str (s : String)
  | num (n : Int)
  | fn (id : Nat)
deriving DecidableEq, Repr

/-- Ids of live (external) DOM nodes. -/
abbrev NodeId := Nat

mutual
/-- A virtual-tree node descriptor, as produced by the constructor `h`:
tag, attribute mapping (insertion ordered), children, the key extracted
from the attributes, and the bound external node (null until
materialized).  The constructor normalizes non-array children to a
one-element sequence, so `children` is always a sequence here; the
renderer's dead branches for bare-string children are consequently not
modelled. -/
inductive VNode where
  | mk (tag : String) (props : List (String × PVal))
       (children : List VChild) (key : Option PVal) (el : Option NodeId)

/-- A child of a descriptor: a bare text value or a nested descriptor. -/
inductive VChild where
  | text (s : String)
  | node (v : VNode)
end

namespace VNode

def tag : VNode → String
  | mk t _ _ _ _ => t

def props : VNode → List (String × PVal)
  | mk _ p _ _ _ => p

def children : VNode → List VChild
  | mk _ _ c _ _ => c

def key : VNode → Option PVal
  | mk _ _ _ k _ => k

def el : VNode → Option NodeId
  | mk _ _ _ _ e => e

/-- `newVnode.el = oldVnode.el` -/
def setEl : VNode → NodeId → VNode
  | mk t p c k _, e => mk t p c k (some e)

end VNode

/-- Lookup of a property by name (JS object property read). -/
def lookupProp (ps : List (String × PVal)) (k : String) : Option PVal :=
  (ps.find? (fun e => e.fst = k)).map (fun e => e.snd)

/-- JS `key in props`. -/
def containsProp (ps : List (String × PVal)) (k : String) : Bool :=
  ps.any (fun e => e.fst = k)

/-- The argument shape accepted by `h` for children: an array, or a
single non-array value (normalized to a one-element array). -/
inductive HChildren where
  | arr (cs : List VChild)
  | single (c : VChild)

/-- The descriptor constructor `h(tag, props, children)`: normalizes a
single child to a one-element array, extracts `props.key` into the key
field (without deleting it from the attribute mapping), and leaves the
bound node null. -/
def h (tag : String) (props : List (String × PVal)) (children : HChildren) : VNode :=
  let cs := match children with
    | HChildren.arr cs => cs
    | HChildren.single c => [c]
  VNode.mk tag props cs (lookupProp props "key") none

set_option linter.unusedVariables false
set_option linter.unreachableTactic false

/-! ## The external DOM backend -/

/-- A live DOM node: an element (tag, plain attributes, event
listeners, ordered children, text content slot) or a text node. -/
inductive DNode where
  | elem (tag : String) (attrs : List (String × PVal))
         (listeners : List (String × PVal)) (kids : List NodeId)
         (txt : Option String)
  | textNode (s : String)
deriving DecidableEq, Repr

/-- One call into the DOM backend, recorded in the trace. -/
inductive DomOp where
  | createElement (id : NodeId) (tag : String)
  | createTextNode (id : NodeId) (s : String)
  | setAttribute (id : NodeId) (name : String) (v : PVal)
  | removeAttribute (id : NodeId) (name : String)
  | addEventListener (id : NodeId) (ev : String) (f : PVal)
  | removeEventListener (id : NodeId) (ev : String) (f : PVal)
  | appendChild (parent : NodeId) (child : NodeId)
  | insertBefore (parent : NodeId) (child : NodeId) (anchor : NodeId)
  | removeChild (parent : NodeId) (child : NodeId)
  | setTextContent (id : NodeId) (s : String)
deriving DecidableEq, Repr

/-- The document: fresh-id counter and the id → node map. -/
structure Dom where
  nextId : Nat
  nodes : List (NodeId × DNode)
deriving DecidableEq, Repr

def lookupNode (d : Dom) (i : NodeId) : Option DNode :=
  (d.nodes.find? (fun e => e.fst = i)).map (fun e => e.snd)

/-- The ordered child list of a node (empty for text nodes and for
absent ids). -/
def kidsOf (d : Dom) (i : NodeId) : List NodeId :=
  match lookupNode d i with
  | some (DNode.elem _ _ _ kids _) => kids
  | _ => []

/-- Replace the node stored at an id (no change if the id is absent). -/
def updateNode (d : Dom) (i : NodeId) (f : DNode → DNode) : Dom :=
  { d with nodes := d.nodes.map (fun e => if e.fst = i then (e.fst, f e.snd) else e) }

def mapKids (f : List NodeId → List NodeId) : DNode → DNode
  | DNode.elem t a l kids s => DNode.elem t a l (f kids) s
  | DNode.textNode s => DNode.textNode s

/-- Remove a node id from every child list (a node is moved by first
detaching it from wherever it currently lives). -/
def detach (d : Dom) (n : NodeId) : Dom :=
  { d with nodes := d.nodes.map (fun e => (e.fst, mapKids (fun kids => kids.erase n) e.snd)) }

/-- `document.createElement(tag)` — allocates a fresh element node. -/
def createElementD (tag : String) (d : Dom) : NodeId × Dom × List DomOp :=
  let i := d.nextId
  (i, { nextId := i + 1, nodes := d.nodes ++ [(i, DNode.elem tag [] [] [] none)] },
   [DomOp.createElement i tag])

/-- `document.createTextNode(s)`. -/
def createTextNodeD (s : String) (d : Dom) : NodeId × Dom × List DomOp :=
  let i := d.nextId
  (i, { nextId := i + 1, nodes := d.nodes ++ [(i, DNode.textNode s)] },
   [DomOp.createTextNode i s])

def setAttrList (attrs : List (String × PVal)) (k : String) (v : PVal) :
    List (String × PVal) :=
  if containsProp attrs k then
    attrs.map (fun e => if e.fst = k then (k, v) else e)
  else attrs ++ [(k, v)]

/-- `el.setAttribute(name, v)` (the DOM's stringification of the value
is not modelled; no claim observes the stored representation). -/
def setAttributeD (i : NodeId) (k : String) (v : PVal) (d : Dom) : Dom × List DomOp :=
  (updateNode d i (fun nd => match nd with
    | DNode.elem t a l kids s => DNode.elem t (setAttrList a k v) l kids s
    | n => n), [DomOp.setAttribute i k v])

/-- `el.removeAttribute(name)`. -/
def removeAttributeD (i : NodeId) (k : String) (d : Dom) : Dom × List DomOp :=
  (updateNode d i (fun nd => match nd with
    | DNode.elem t a l kids s => DNode.elem t (a.filter (fun e => ¬ e.fst = k)) l kids s
    | n => n), [DomOp.removeAttribute i k])

/-- `el.addEventListener(ev, f)` — the DOM deduplicates an identical
(event, listener) pair. -/
def addEventListenerD (i : NodeId) (ev : String) (f : PVal) (d : Dom) : Dom × List DomOp :=
  (updateNode d i (fun nd => match nd with
    | DNode.elem t a l kids s =>
        DNode.elem t a (if (ev, f) ∈ l then l else l ++ [(ev, f)]) kids s
    | n => n), [DomOp.addEventListener i ev f])

/-- `el.removeEventListener(ev, f)` — removes a matching pair, no-op
otherwise. -/
def removeEventListenerD (i : NodeId) (ev : String) (f : PVal) (d : Dom) : Dom × List DomOp :=
  (updateNode d i (fun nd => match nd with
    | DNode.elem t a l kids s => DNode.elem t a (l.filter (fun e => ¬ e = (ev, f))) kids s
    | n => n), [DomOp.removeEventListener i ev f])

/-- `parent.appendChild(n)` — detaches `n` from its current position
and appends it. -/
def appendChildD (p n : NodeId) (d : Dom) : Dom × List DomOp :=
  (updateNode (detach d n) p (mapKids (fun kids => kids ++ [n])), [DomOp.appendChild p n])

/-- Insert `n` immediately before the first occurrence of `a`. -/
def insertIntoList (n a : NodeId) : List NodeId → List NodeId
  | [] => [n]
  | x :: xs => if x = a then n :: x :: xs else x :: insertIntoList n a xs

/-- `parent.insertBefore(n, a)` — throws (none) when the anchor is not
a child of `parent`; when `a = n` the DOM re-anchors on `n`'s next
sibling, a net no-op. -/
def insertBeforeD (p n a : NodeId) (d : Dom) : Dom × List DomOp × Option Unit :=
  if a ∈ kidsOf d p then
    if a = n then (d, [DomOp.insertBefore p n a], some ())
    else
      (updateNode (detach d n) p (mapKids (insertIntoList n a)),
       [DomOp.insertBefore p n a], some ())
  else (d, [], none)

/-- `parent.removeChild(n)` — throws (none) when `n` is not a child of
`parent`. -/
def removeChildD (p n : NodeId) (d : Dom) : Dom × List DomOp × Option Unit :=
  if n ∈ kidsOf d p then
    (updateNode d p (mapKids (fun kids => kids.erase n)), [DomOp.removeChild p n], some ())
  else (d, [], none)

/-- `node.textContent = s` — on an element this discards all children;
on a text node it replaces the text. -/
def setTextContentD (i : NodeId) (s : String) (d : Dom) : Dom × List DomOp :=
  (updateNode d i (fun nd => match nd with
    | DNode.elem t a l _ _ => DNode.elem t a l [] (some s)
    | DNode.textNode _ => DNode.textNode s), [DomOp.setTextContent i s])

/-- `n.parentNode` — the (first) node whose child list contains `n`. -/
def parentOf (d : Dom) (n : NodeId) : Option NodeId :=
  (d.nodes.find? (fun e => n ∈ kidsOf d e.fst)).map (fun e => e.fst)

def afterIn (n : NodeId) : List NodeId → Option NodeId
  | [] => none
  | x :: xs => if x = n then xs.head? else afterIn n xs

/-- `n.nextSibling`. -/
def nextSiblingOf (d : Dom) (n : NodeId) : Option NodeId :=
  match parentOf d n with
  | none => none
  | some p => afterIn n (kidsOf d p)

/-! ## The materializer -/

/-- `key.startsWith('on')` — the naming convention distinguishing
event-listener bindings from plain attributes (written on the
character list so that terms over string literals reduce). -/
def isOn (k : String) : Bool :=
  match k.data with
  | 'o' :: 'n' :: _ => true
  | _ => false

/-- `key.slice(2).toLowerCase()` — `onClick` becomes `click`. -/
def evName (k : String) : String :=
  String.mk ((k.data.drop 2).map Char.toLower)

/-- The attribute loop of `mount`: listeners registered for `on`-named
properties, everything else set as a plain attribute. -/
def mountProps (el : NodeId) : List (String × PVal) → Dom → Dom × List DomOp
  | [], d => (d, [])
  | (k, v) :: rest, d =>
    let s1 := if isOn k then addEventListenerD el (evName k) v d
              else setAttributeD el k v d
    let s2 := mountProps el rest s1.fst
    (s2.fst, s1.snd ++ s2.snd)

mutual
/-- `mount(vnode, container)`: create the element, bind it into the
descriptor, apply attributes/listeners, materialize the children under
the new element, then append the element to the container. -/
def mount (v : VNode) (container : NodeId) (d : Dom) : VNode × Dom × List DomOp :=
  match v with
  | VNode.mk tag props children key _ =>
    let c1 := createElementD tag d
    let el := c1.fst
    let p1 := mountProps el props c1.snd.fst
    let k1 := mountChildren children el p1.fst
    let a1 := appendChildD container el k1.snd.fst
    (VNode.mk tag props k1.fst key (some el), a1.fst,
     c1.snd.snd ++ p1.snd ++ k1.snd.snd ++ a1.snd)

/-- The child loop of `mount`: text children become text nodes,
descriptor children are mounted recursively. -/
def mountChildren (cs : List VChild) (el : NodeId) (d : Dom) :
    List VChild × Dom × List DomOp :=
  match cs with
  | [] => ([], d, [])
  | VChild.text s :: rest =>
    let t1 := createTextNodeD s d
    let a1 := appendChildD el t1.fst t1.snd.fst
    let r1 := mountChildren rest el a1.fst
    (VChild.text s :: r1.fst, r1.snd.fst, t1.snd.snd ++ a1.snd ++ r1.snd.snd)
  | VChild.node v :: rest =>
    let m1 := mount v el d
    let r1 := mountChildren rest el m1.snd.fst
    (VChild.node m1.fst :: r1.fst, r1.snd.fst, m1.snd.snd ++ r1.snd.snd)
end

/-! ## The attribute diff -/

/-- JS truthiness of a property value (`if (oldValue)`). -/
def pvalTruthy : PVal → Bool
  | PVal.str s => !(s == "")
  | PVal.num n => !(n == 0)
  | PVal.fn _ => true

/-- First loop of `patchProps`: walk the new attributes; skip an
attribute whose old value is identical; rebind listeners (removing the
old listener when the old value was truthy); set plain attributes. -/
def patchPropsNew (el : NodeId) (oldPs : List (String × PVal)) :
    List (String × PVal) → Dom → Dom × List DomOp
  | [], d => (d, [])
  | (k, v) :: rest, d =>
    let s1 : Dom × List DomOp :=
      if lookupProp oldPs k = some v then (d, [])
      else if isOn k then
        let r1 : Dom × List DomOp :=
          match lookupProp oldPs k with
          | some ov => if pvalTruthy ov then removeEventListenerD el (evName k) ov d
                       else (d, [])
          | none => (d, [])
        let a1 := addEventListenerD el (evName k) v r1.fst
        (a1.fst, r1.snd ++ a1.snd)
      else setAttributeD el k v d
    let s2 := patchPropsNew el oldPs rest s1.fst
    (s2.fst, s1.snd ++ s2.snd)

/-- Second loop of `patchProps`: remove old attributes that are absent
from the new set. -/
def patchPropsOld (el : NodeId) (newPs : List (String × PVal)) :
    List (String × PVal) → Dom → Dom × List DomOp
  | [], d => (d, [])
  | (k, v) :: rest, d =>
    let s1 : Dom × List DomOp :=
      if containsProp newPs k then (d, [])
      else if isOn k then removeEventListenerD el (evName k) v d
      else removeAttributeD el k d
    let s2 := patchPropsOld el newPs rest s1.fst
    (s2.fst, s1.snd ++ s2.snd)

/-- `patchProps(el, oldProps, newProps)` — only changed attributes are
applied, attributes missing from the new set are removed. -/
def patchProps (el : NodeId) (oldPs newPs : List (String × PVal)) (d : Dom) :
    Dom × List DomOp :=
  let s1 := patchPropsNew el oldPs newPs d
  let s2 := patchPropsOld el newPs oldPs s1.fst
  (s2.fst, s1.snd ++ s2.snd)

/-! ## The keyed children diff: helpers -/

/-- `children.some(c => typeof c === 'object' && c.key !== undefined)`. -/
def hasKeyedChildren (cs : List VChild) : Bool :=
  cs.any (fun c => match c with
    | VChild.node v => v.key.isSome
    | VChild.text _ => false)

/-- JS `Map.set` (overwrite an existing key, else append). -/
def mapSet (m : List (PVal × Nat)) (k : PVal) (i : Nat) : List (PVal × Nat) :=
  if m.any (fun e => e.fst = k) then
    m.map (fun e => if e.fst = k then (k, i) else e)
  else m ++ [(k, i)]

/-- JS `Map.get`. -/
def mapGet (m : List (PVal × Nat)) (k : PVal) : Option Nat :=
  (m.find? (fun e => e.fst = k)).map (fun e => e.snd)

def natMapGet (m : List (Nat × Nat)) (k : Nat) : Option Nat :=
  (m.find? (fun e => e.fst = k)).map (fun e => e.snd)

/-- JS `Set.add` (insertion ordered, deduplicated). -/
def addSet (s : List Nat) (i : Nat) : List Nat :=
  if i ∈ s then s else s ++ [i]

/-- Step 1 of the keyed diff: key → new-index map over the new
children (text children and children without a key are excluded). -/
def buildKeyMap : List VChild → Nat → List (PVal × Nat) → List (PVal × Nat)
  | [], _, m => m
  | VChild.text _ :: rest, i, m => buildKeyMap rest (i + 1) m
  | VChild.node v :: rest, i, m =>
    match v.key with
    | some k => buildKeyMap rest (i + 1) (mapSet m k i)
    | none => buildKeyMap rest (i + 1) m

/-- `findAnchor`'s scan, written with an explicit iteration bound
(first argument) so that the recursion is structural; the bound is
instantiated with `news.length`, which dominates the number of
remaining iterations from any start index, so the function coincides
with the source's `for` loop. -/
def findAnchorAux (news : List VChild) (newIndices : List Nat) :
    Nat → Nat → Option NodeId
  | 0, _ => none
  | fuel + 1, i =>
    if i < news.length then
      let hit : Option NodeId :=
        if i ∈ newIndices then
          match news.get? i with
          | some (VChild.node v) => v.el
          | _ => none
        else none
      match hit with
      | some e => some e
      | none => findAnchorAux news newIndices fuel (i + 1)
    else none

/-- `findAnchor`: scan indices after `targetIndex` for the first
matched new child that already has a live node.  The container
argument of the source is unused there as well. -/
def findAnchor (_container : NodeId) (targetIndex : Nat) (news : List VChild)
    (newIndices : List Nat) : Option NodeId :=
  findAnchorAux news newIndices news.length (targetIndex + 1)

/-- Step 3 of the keyed diff: walk old indices from last to first
(`i` counts the indices still to process, so the current old index is
`i - 1`); a matched node whose new index improves on `lastMoved` is
left in place, any other matched node is re-inserted before the anchor
(or appended when there is none). -/
def moveLoop (olds : List VChild) (o2n : List (Nat × Nat)) (news : List VChild)
    (newIndices : List Nat) (container : NodeId) :
    Nat → Int → Dom → Dom × List DomOp × Option Unit
  | 0, _, d => (d, [], some ())
  | i + 1, lastMoved, d =>
    match natMapGet o2n i with
    | none => moveLoop olds o2n news newIndices container i lastMoved d
    | some newIndex =>
      match olds.get? i with
      | some (VChild.node ov) =>
        if (newIndex : Int) > lastMoved then
          moveLoop olds o2n news newIndices container i (newIndex : Int) d
        else
          match ov.el with
          | none => (d, [], none)
          | some e =>
            match findAnchor container newIndex news newIndices with
            | some a =>
              let s1 := insertBeforeD container e a d
              match s1.snd.snd with
              | none => (s1.fst, s1.snd.fst, none)
              | some _ =>
                let s2 := moveLoop olds o2n news newIndices container i lastMoved s1.fst
                (s2.fst, s1.snd.fst ++ s2.snd.fst, s2.snd.snd)
            | none =>
              let s1 := appendChildD container e d
              let s2 := moveLoop olds o2n news newIndices container i lastMoved s1.fst
              (s2.fst, s1.snd ++ s2.snd.fst, s2.snd.snd)
      | _ => (d, [], none)

/-- Step 4 of the keyed diff: every new index that was never matched is
materialized fresh and inserted at the anchor position (appended when
no anchor exists).  Materializing a bare text child at this point
faithfully reproduces the source's failure: `mount` would create an
element for an undefined tag and then throw on the strict-mode
assignment `vnode.el = el` to a string primitive. -/
def insertLoop (newIndices : List Nat) (container : NodeId) :
    Nat → List VChild → Nat → Dom → Dom × List DomOp × Option (List VChild)
  | 0, news, _, d => (d, [], some news)
  | fuel + 1, news, i, d =>
    if i < news.length then
      if i ∈ newIndices then insertLoop newIndices container fuel news (i + 1) d
      else
        match news.get? i with
        | some (VChild.node v) =>
          match findAnchor container i news newIndices with
          | some a =>
            let m := mount v container d
            match m.fst.el with
            | none => (m.snd.fst, m.snd.snd, none)
            | some e =>
              let s1 := insertBeforeD container e a m.snd.fst
              match s1.snd.snd with
              | none => (s1.fst, m.snd.snd ++ s1.snd.fst, none)
              | some _ =>
                let s2 := insertLoop newIndices container fuel
                            (news.set i (VChild.node m.fst)) (i + 1) s1.fst
                (s2.fst, m.snd.snd ++ s1.snd.fst ++ s2.snd.fst, s2.snd.snd)
          | none =>
            let m := mount v container d
            let s2 := insertLoop newIndices container fuel
                        (news.set i (VChild.node m.fst)) (i + 1) m.snd.fst
            (s2.fst, m.snd.snd ++ s2.snd.fst, s2.snd.snd)
        | _ =>
          let c := createElementD "undefined" d
          (c.snd.fst, c.snd.snd, none)
    else (d, [], some news)

/-! ## The unkeyed children diff: helpers -/

/-- The shrink phase of the unkeyed diff, iterating from the end
backward; the input pairs are already in descending index order.  A
text child's live node is found positionally via the container's
current child list, a structured child's via its bound node. -/
def removeLoopU (container : NodeId) :
    List (Nat × VChild) → Dom → Dom × List DomOp × Option Unit
  | [], d => (d, [], some ())
  | (i, c) :: rest, d =>
    let elOpt : Option NodeId :=
      match c with
      | VChild.text _ => (kidsOf d container).get? i
      | VChild.node v => v.el
    match elOpt with
    | none => (d, [], none)
    | some e =>
      let s1 := removeChildD container e d
      match s1.snd.snd with
      | none => (s1.fst, s1.snd.fst, none)
      | some _ =>
        let s2 := removeLoopU container rest s1.fst
        (s2.fst, s1.snd.fst ++ s2.snd.fst, s2.snd.snd)

/-- The growth phase of the unkeyed diff: materialize and append each
extra new child (a bare text child makes the source's `mount` throw;
see `insertLoop`). -/
def mountList (container : NodeId) :
    List VChild → Dom → Dom × List DomOp × Option (List VChild)
  | [], d => (d, [], some [])
  | VChild.node v :: rest, d =>
    let m := mount v container d
    let s2 := mountList container rest m.snd.fst
    (s2.fst, m.snd.snd ++ s2.snd.fst,
     s2.snd.snd.map (fun l => VChild.node m.fst :: l))
  | VChild.text _ :: _, d =>
    let c := createElementD "undefined" d
    (c.snd.fst, c.snd.snd, none)

/-! ## The reconciler

The reconciler's recursion is tied with an explicit recursion-depth
bound (`fuel`): `patch fuel` hands `patch (fuel - 1)` to the
children-diff functions as the recursive reference.  Any bound larger
than the nesting depth of the new tree yields the source's behavior
(one unit is consumed per nesting level); an exhausted bound returns
the failure result, which the theorems rule out by instantiating or
bounding the fuel.  This keeps every function structurally recursive,
so terms over concrete inputs reduce. -/

/-- The type of the recursive reconciliation reference handed to the
children-diff functions. -/
abbrev PatchFun := VNode → VNode → Dom → Dom × List DomOp × Option VNode

/-- Step 2 of the keyed diff: walk the old children; text children and
children without a key are skipped entirely; a keyed child whose key
is in the map is recursively patched in place (recording the
old-index → new-index correspondence and marking the new index as
matched); a keyed child whose key is absent has its live node removed.

The recursive patch is applied to the element of the original new
children sequence (`newsOrig`) and the result written back at its
index in the threaded sequence; this coincides with the source (which
patches the live array element in place) because `patch` never reads
and always overwrites the bound-node fields of its second argument. -/
def keyedMatchLoop (patchF : PatchFun) (km : List (PVal × Nat))
    (newsOrig : List VChild) (container : NodeId) :
    List VChild → Nat → List VChild → List (Nat × Nat) → List Nat → Dom →
    Dom × List DomOp × Option (List VChild × List (Nat × Nat) × List Nat)
  | [], _, news, o2n, matched, d => (d, [], some (news, o2n, matched))
  | VChild.text _ :: rest, oldIndex, news, o2n, matched, d =>
    keyedMatchLoop patchF km newsOrig container rest (oldIndex + 1) news o2n
      matched d
  | VChild.node ov :: rest, oldIndex, news, o2n, matched, d =>
    match ov.key with
    | none =>
      keyedMatchLoop patchF km newsOrig container rest (oldIndex + 1) news o2n
        matched d
    | some k =>
      match mapGet km k with
      | some newIndex =>
        match newsOrig.get? newIndex with
        | some (VChild.node nv) =>
          let pr := patchF ov nv d
          match pr.snd.snd with
          | none => (pr.fst, pr.snd.fst, none)
          | some nv2 =>
            let s := keyedMatchLoop patchF km newsOrig container rest
                       (oldIndex + 1) (news.set newIndex (VChild.node nv2))
                       (o2n ++ [(oldIndex, newIndex)]) (addSet matched newIndex)
                       pr.fst
            (s.fst, pr.snd.fst ++ s.snd.fst, s.snd.snd)
        | _ => (d, [], none)
      | none =>
        match ov.el with
        | none => (d, [], none)
        | some e =>
          let rc := removeChildD container e d
          match rc.snd.snd with
          | none => (rc.fst, rc.snd.fst, none)
          | some _ =>
            let s := keyedMatchLoop patchF km newsOrig container rest
                       (oldIndex + 1) news o2n matched rc.fst
            (s.fst, rc.snd.fst ++ s.snd.fst, s.snd.snd)

/-- The shared-prefix loop of the unkeyed diff (`i` is the current
position, used for positional access to live text nodes): text/text
updates text content on inequality, descriptor/descriptor recurses,
a shape mismatch replaces the old live node at that position. -/
def unkeyedCommon (patchF : PatchFun) (container : NodeId) :
    List VChild → List VChild → Nat → Dom →
    Dom × List DomOp × Option (List VChild)
  | oc :: os, ncc :: ns, i, d =>
    let step : Dom × List DomOp × Option VChild :=
      match oc, ncc with
      | VChild.text so, VChild.text sn =>
        if so = sn then (d, [], some (VChild.text sn))
        else
          match (kidsOf d container).get? i with
          | none => (d, [], none)
          | some tid =>
            let st := setTextContentD tid sn d
            (st.fst, st.snd, some (VChild.text sn))
      | VChild.node ov, VChild.node nv =>
        let pr := patchF ov nv d
        (pr.fst, pr.snd.fst, pr.snd.snd.map (fun v2 => VChild.node v2))
      | VChild.text _, VChild.node nv =>
        match (kidsOf d container).get? i with
        | none => (d, [], none)
        | some oldEl =>
          let rc := removeChildD container oldEl d
          match rc.snd.snd with
          | none => (rc.fst, rc.snd.fst, none)
          | some _ =>
            let m := mount nv container rc.fst
            (m.snd.fst, rc.snd.fst ++ m.snd.snd, some (VChild.node m.fst))
      | VChild.node ov, VChild.text _ =>
        match ov.el with
        | none => (d, [], none)
        | some oldEl =>
          let rc := removeChildD container oldEl d
          match rc.snd.snd with
          | none => (rc.fst, rc.snd.fst, none)
          | some _ =>
            let c := createElementD "undefined" rc.fst
            (c.snd.fst, rc.snd.fst ++ c.snd.snd, none)
    match step.snd.snd with
    | none => (step.fst, step.snd.fst, none)
    | some nc2 =>
      let s2 := unkeyedCommon patchF container os ns (i + 1) step.fst
      (s2.fst, step.snd.fst ++ s2.snd.fst, s2.snd.snd.map (fun l => nc2 :: l))
  | _, rest, _, d => (d, [], some rest)

/-- `patchUnkeyedChildren`: patch the shared prefix in place, then
materialize-and-append the extra new children, or remove the extra old
live nodes iterating from the end backward. -/
def patchUnkeyedChildren (patchF : PatchFun) (oldC newC : List VChild)
    (container : NodeId) (d : Dom) : Dom × List DomOp × Option (List VChild) :=
  let s1 := unkeyedCommon patchF container oldC newC 0 d
  match s1.snd.snd with
  | none => (s1.fst, s1.snd.fst, none)
  | some news1 =>
    if oldC.length < newC.length then
      let s2 := mountList container (news1.drop oldC.length) s1.fst
      match s2.snd.snd with
      | none => (s2.fst, s1.snd.fst ++ s2.snd.fst, none)
      | some tail2 =>
        (s2.fst, s1.snd.fst ++ s2.snd.fst, some (news1.take oldC.length ++ tail2))
    else if newC.length < oldC.length then
      let pairs :=
        (List.zip ((List.range oldC.length).drop newC.length)
                  (oldC.drop newC.length)).reverse
      let s3 := removeLoopU container pairs s1.fst
      (s3.fst, s1.snd.fst ++ s3.snd.fst, s3.snd.snd.map (fun _ => news1))
    else (s1.fst, s1.snd.fst, some news1)

/-- `patchKeyedChildren`: build the key → new-index map, run the
match/remove pass over the old children, then the single-pass move
heuristic, then insert the never-matched new children. -/
def patchKeyedChildren (patchF : PatchFun) (oldC newC : List VChild)
    (container : NodeId) (d : Dom) : Dom × List DomOp × Option (List VChild) :=
  let km := buildKeyMap newC 0 []
  let s2 := keyedMatchLoop patchF km newC container oldC 0 newC [] [] d
  match s2.snd.snd with
  | none => (s2.fst, s2.snd.fst, none)
  | some acc =>
    let s3 := moveLoop oldC acc.snd.fst acc.fst acc.snd.snd container
                oldC.length (-1) s2.fst
    match s3.snd.snd with
    | none => (s3.fst, s2.snd.fst ++ s3.snd.fst, none)
    | some _ =>
      let s4 := insertLoop acc.snd.snd container acc.fst.length acc.fst 0 s3.fst
      (s4.fst, s2.snd.fst ++ s3.snd.fst ++ s4.snd.fst, s4.snd.snd)

/-- `patchChildren` (both children sequences are arrays for
descriptor trees built by `h`; the bare-string branches of the source
are unreachable for such trees and not modelled). -/
def patchChildren (patchF : PatchFun) (oldC newC : List VChild)
    (container : NodeId) (d : Dom) : Dom × List DomOp × Option (List VChild) :=
  if hasKeyedChildren newC then patchKeyedChildren patchF oldC newC container d
  else patchUnkeyedChildren patchF oldC newC container d

/-- `patch(oldVnode, newVnode)`.  Different tags: remove the old live
node (recording parent and next sibling first), materialize the new
subtree fresh, and re-insert it at the old position.  Same tag: reuse
the old live node, diff attributes, diff children.

The source dereferences `oldVnode.el` lazily; this embedding requires
the old descriptor to carry a bound node up front, which is equivalent
for the renderer's own call sites (patch is only ever invoked on the
previously mounted tree). -/
def patch : Nat → VNode → VNode → Dom → Dom × List DomOp × Option VNode
  | 0, _, _, d => (d, [], none)
  | fuel + 1, o, n, d =>
    match o, n with
    | VNode.mk otag oprops oc _ok oel, VNode.mk ntag nprops nc nk ne =>
      if otag = ntag then
        match oel with
        | none => (d, [], none)
        | some e =>
          let pp := patchProps e oprops nprops d
          let pc := patchChildren (patch fuel) oc nc e pp.fst
          (pc.fst, pp.snd ++ pc.snd.fst,
           pc.snd.snd.map (fun cs => VNode.mk ntag nprops cs nk (some e)))
      else
        match oel with
        | none => (d, [], none)
        | some e =>
          match parentOf d e with
          | none => (d, [], none)
          | some p =>
            let nextSib := nextSiblingOf d e
            let rc := removeChildD p e d
            match rc.snd.snd with
            | none => (rc.fst, rc.snd.fst, none)
            | some _ =>
              let m := mount (VNode.mk ntag nprops nc nk ne) p rc.fst
              match m.fst.el with
              | none => (m.snd.fst, rc.snd.fst ++ m.snd.snd, none)
              | some ne2 =>
                match nextSib with
                | some a =>
                  let ib := insertBeforeD p ne2 a m.snd.fst
                  (ib.fst, rc.snd.fst ++ m.snd.snd ++ ib.snd.fst,
                   ib.snd.snd.map (fun _ => m.fst))
                | none =>
                  let ac := appendChildD p ne2 m.snd.fst
                  (ac.fst, rc.snd.fst ++ m.snd.snd ++ ac.snd, some m.fst)

/-! ## The reactive layer

The reactive system of the source is modelled for one reactive subject
(the dependency store is keyed by field name; the source's outer
WeakMap level keyed by target object adds nothing for a single
subject).  A task body is deep-embedded as a list of statements —
reads of reactive fields, a throw, or starting a nested effect — which
covers every task shape the tracked claims quantify over; bodies do
not write reactive fields, so a trigger cascade always terminates and
`trigger` can run each dependent directly. -/

/-- One statement of a task body. -/
inductive Stmt where
  | readF (f : String)
  | throwE
  | nestedEffect (t : Nat) (body : List Stmt)
deriving Repr

abbrev TaskId := Nat

/-- The reactive runtime state: the subject's fields, the dependency
map `field → insertion-ordered set of dependent tasks`, the
process-wide current-task slot (`activeEffect`), and an
instrumentation log collecting every task execution in order. -/
structure RState where
  store : List (String × Int)
  deps : List (String × List TaskId)
  activeEffect : Option TaskId
  runLog : List TaskId
deriving Repr

def lookupDeps (s : RState) (f : String) : List TaskId :=
  match (s.deps.find? (fun e => e.fst = f)).map (fun e => e.snd) with
  | some l => l
  | none => []

/-- `track(target, key)`: no-op without a current task; otherwise add
the current task to the field's dependency set (JS `Set.add`:
deduplicated, insertion ordered). -/
def track (s : RState) (f : String) : RState :=
  match s.activeEffect with
  | none => s
  | some t =>
    if s.deps.any (fun e => e.fst = f) then
      { s with deps := s.deps.map (fun e =>
          if e.fst = f then (e.fst, if t ∈ e.snd then e.snd else e.snd ++ [t]) else e) }
    else { s with deps := s.deps ++ [(f, [t])] }

def storeSet (st : List (String × Int)) (f : String) (v : Int) : List (String × Int) :=
  if st.any (fun e => e.fst = f) then
    st.map (fun e => if e.fst = f then (f, v) else e)
  else st ++ [(f, v)]

def lookupStore (st : List (String × Int)) (f : String) : Option Int :=
  (st.find? (fun e => e.fst = f)).map (fun e => e.snd)

/-- Execute a task body with an explicit nesting/length bound (one
unit of the bound is consumed per statement and per nesting level, so
any bound above the total size of the body gives the source's
behavior; the theorems bound it by `sizeOf`): a read goes through the
proxy get trap (`track` then the underlying read); a throw aborts the
body; a nested effect runs re-entrantly through the save/restore
wrapper (inlined here; `effectFn` is the same wrapper stated
separately).  `none` = an exception escaped. -/
def execStmts (env : TaskId → List Stmt) :
    Nat → List Stmt → RState → RState × Option Unit
  | 0, _, s => (s, none)
  | _ + 1, [], s => (s, some ())
  | fuel + 1, Stmt.readF f :: rest, s => execStmts env fuel rest (track s f)
  | _ + 1, Stmt.throwE :: _, s => (s, none)
  | fuel + 1, Stmt.nestedEffect t b :: rest, s =>
    let prev := s.activeEffect
    let s1 := { s with activeEffect := some t, runLog := s.runLog ++ [t] }
    let r := execStmts env fuel b s1
    let r2 : RState × Option Unit := ({ r.fst with activeEffect := prev }, r.snd)
    match r2.snd with
    | none => (r2.fst, none)
    | some _ => execStmts env fuel rest r2.fst

/-- The wrapper built by `effect(fn)`: save the previous
`activeEffect`, install this task as current, run the body, and in a
`finally` restore the previous current task — also when the body
throws, in which case the exception continues to propagate.  Each
invocation is recorded in the run log. -/
def effectFn (env : TaskId → List Stmt) (fuel : Nat) (t : TaskId)
    (body : List Stmt) (s : RState) : RState × Option Unit :=
  let prev := s.activeEffect
  let s1 := { s with activeEffect := some t, runLog := s.runLog ++ [t] }
  let r := execStmts env fuel body s1
  ({ r.fst with activeEffect := prev }, r.snd)

/-- The iteration of `trigger` over the dependency set (JS
`Set.forEach`): run each dependent; an exception aborts the iteration
and propagates.  The iteration is over a snapshot of the set; for the
write-free task bodies modelled here a running task can only re-add
itself, which leaves the set unchanged, so this coincides with the
live iteration of the source. -/
def runDeps (env : TaskId → List Stmt) (fuel : Nat) :
    List TaskId → RState → RState × Option Unit
  | [], s => (s, some ())
  | t :: rest, s =>
    let r := effectFn env fuel t (env t) s
    match r.snd with
    | none => (r.fst, none)
    | some _ => runDeps env fuel rest r.fst

/-- `trigger(target, key)`: run every task in the field's dependency
set; no-op when none are registered. -/
def trigger (env : TaskId → List Stmt) (fuel : Nat) (s : RState) (f : String) :
    RState × Option Unit :=
  runDeps env fuel (lookupDeps s f) s

/-- The proxy `get` trap: `track(target, key)` then the underlying
read. -/
def reactiveGet (s : RState) (f : String) : RState × Option Int :=
  (track s f, lookupStore s.store f)

/-- The proxy `set` trap: perform the underlying write, then
`trigger(target, key)` unconditionally — there is no equality
short-circuit. -/
def reactiveSet (env : TaskId → List Stmt) (fuel : Nat) (s : RState)
    (f : String) (v : Int) : RState × Option Unit :=
  trigger env fuel { s with store := storeSet s.store f v } f

/-- `effect(fn)`: build the wrapper, run it once immediately to
establish dependencies, and hand the wrapper back (its identity is the
task id). -/
def effect (env : TaskId → List Stmt) (fuel : Nat) (t : TaskId)
    (body : List Stmt) (s : RState) : RState × Option Unit :=
  effectFn env fuel t body s

/-! ## Concrete documents and trees used by the theorems -/

/-- A document holding one empty mount container with id 0. -/
def rootDom : Dom := { nextId := 1, nodes := [(0, DNode.elem "root" [] [] [] none)] }

/-- `h('li', { key: k }, [])`. -/
def keyedLi (k : Int) : VNode := h "li" [("key", PVal.num k)] (HChildren.arr [])

/-- Old keyed sequence `[A(key=1), B(key=2), C(key=3)]` under a `ul`. -/
def ulABC : VNode :=
  h "ul" [] (HChildren.arr
    [VChild.node (keyedLi 1), VChild.node (keyedLi 2), VChild.node (keyedLi 3)])

/-- New keyed sequence `[C(key=3), A(key=1), B(key=2)]` under a `ul`. -/
def ulCAB : VNode :=
  h "ul" [] (HChildren.arr
    [VChild.node (keyedLi 3), VChild.node (keyedLi 1), VChild.node (keyedLi 2)])

/-- The mounted old tree and resulting document for the reorder
example (mounting allocates ul=1, A=2, B=3, C=4). -/
def mountedABC : VNode × Dom × List DomOp := mount ulABC 0 rootDom

/-- Reconciling the mounted `[A,B,C]` against `[C,A,B]` (any
recursion bound above the tree depth gives the source's behavior). -/
def reorderRun : Dom × List DomOp × Option VNode :=
  patch 9 mountedABC.fst ulCAB mountedABC.snd.fst

/-- The bound external nodes of a descriptor's children, in new-tree
order. -/
def childEls (v : VNode) : List (Option NodeId) :=
  v.children.map (fun c => match c with
    | VChild.node w => w.el
    | VChild.text _ => none)

mutual
/-- The "identical structural copy" of a descriptor tree: equal tag,
attributes, children and key at every node, bound nodes cleared (as a
freshly constructed tree has them). -/
def stripEls : VNode → VNode
  | VNode.mk t ps cs k _ => VNode.mk t ps (stripElsL cs) k none

/-- See `stripEls`. -/
def stripElsL : List VChild → List VChild
  | [] => []
  | c :: rest => stripElsC c :: stripElsL rest

/-- See `stripEls`. -/
def stripElsC : VChild → VChild
  | VChild.text s => VChild.text s
  | VChild.node v => VChild.node (stripEls v)
end

/-- No duplicate attribute names (true of every JS object literal). -/
def keysNodup : List (String × PVal) → Bool
  | [] => true
  | (k, _) :: rest => !(containsProp rest k) && keysNodup rest

mutual
/-- A mounted, key-free descriptor tree: every node carries a bound
live node, has no duplicate attribute names, and no child sequence
contains a keyed child (so children always diff through the index
algorithm). -/
def mountedUnkeyed : VNode → Bool
  | VNode.mk _ ps cs _ e =>
    e.isSome && keysNodup ps && !(hasKeyedChildren cs) && mountedUnkeyedL cs

/-- See `mountedUnkeyed`. -/
def mountedUnkeyedL : List VChild → Bool
  | [] => true
  | c :: rest => mountedUnkeyedC c && mountedUnkeyedL rest

/-- See `mountedUnkeyed`. -/
def mountedUnkeyedC : VChild → Bool
  | VChild.text _ => true
  | VChild.node v => mountedUnkeyed v
end

/-! ## Claim theorems -/

/-- C1.  The claim states that reconciling the mounted keyed sequence
`[A(key=1), B(key=2), C(key=3)]` (live nodes 2, 3, 4 under container 1)
against `[C(key=3), A(key=1), B(key=2)]` leaves the live node order
`C, A, B`, and in general that the keyed move heuristic makes the final
live order equal the new-tree order.  Evaluating the code at exactly
this input shows the opposite: the only operation performed is
`insertBefore(A.el, B.el)` — a no-op, since A already precedes B — so
the final live order is still `A, B, C` (= `[2, 3, 4]`), while the
new-tree order of the reconciled descriptors is `C, A, B`
(= `[4, 2, 3]`).  The backward walk of step 3 treats `newIndex >
lastMovedIndex` as "already in order", which keeps C (new index 0) and
B (new index 2) unmoved even though their relative order is reversed.
So the claim is false of the code: this theorem exhibits the failing
input (a code bug — the renderer's stated purpose is to make the live
tree match the new descriptor tree). -/
theorem patchKeyed_reorder_leaves_old_order :
    reorderRun.snd.fst = [DomOp.insertBefore 1 2 3] ∧
    kidsOf reorderRun.fst 1 = [2, 3, 4] ∧
    reorderRun.snd.snd.map childEls = some [some 4, some 2, some 3] ∧
    kidsOf reorderRun.fst 1 ≠ [4, 2, 3] := by
  decide

/-! ### Reconcile idempotence (C2) -/

theorem contains_of_mem (ps : List (String × PVal)) (k : String) (v : PVal)
    (hmem : (k, v) ∈ ps) : containsProp ps k = true := by
  have hex : ∃ x ∈ ps, (fun e => decide (e.fst = k)) x = true :=
    ⟨(k, v), hmem, by simp⟩
  simpa [containsProp, List.any_eq_true] using hex

theorem lookup_self (ps : List (String × PVal)) (k : String) (v : PVal)
    (hnd : keysNodup ps = true) (hmem : (k, v) ∈ ps) :
    lookupProp ps k = some v := by
  induction ps with
  | nil => cases hmem
  | cons e rest ih =>
    obtain ⟨k0, v0⟩ := e
    simp [keysNodup] at hnd
    rcases List.mem_cons.mp hmem with heq | hm
    · cases heq
      simp [lookupProp, List.find?]
    · have hk : ¬ k0 = k := by
        intro hkeq
        subst hkeq
        exact absurd (contains_of_mem rest k0 v hm) (by simp [hnd.1])
      have hrest := ih hnd.2 hm
      simp only [lookupProp, List.find?] at hrest ⊢
      simp [hk]
      simpa using hrest

theorem patchPropsNew_self (el : NodeId) (ps : List (String × PVal)) :
    ∀ (qs : List (String × PVal)) (d : Dom),
      (∀ k v, (k, v) ∈ qs → lookupProp ps k = some v) →
      patchPropsNew el ps qs d = (d, [])
  | [], d, _ => rfl
  | (k, v) :: rest, d, hall => by
    have hk := hall k v (List.mem_cons_self _ _)
    have ihr := patchPropsNew_self el ps rest d
      (fun k2 v2 hm => hall k2 v2 (List.mem_cons_of_mem _ hm))
    simp [patchPropsNew, hk, ihr]

theorem patchPropsOld_self (el : NodeId) (ps : List (String × PVal)) :
    ∀ (qs : List (String × PVal)) (d : Dom),
      (∀ k v, (k, v) ∈ qs → containsProp ps k = true) →
      patchPropsOld el ps qs d = (d, [])
  | [], d, _ => rfl
  | (k, v) :: rest, d, hall => by
    have hk := hall k v (List.mem_cons_self _ _)
    have ihr := patchPropsOld_self el ps rest d
      (fun k2 v2 hm => hall k2 v2 (List.mem_cons_of_mem _ hm))
    simp [patchPropsOld, hk, ihr]

/-- Diffing an attribute set against itself performs no operation. -/
theorem patchProps_self (el : NodeId) (ps : List (String × PVal)) (d : Dom)
    (hnd : keysNodup ps = true) : patchProps el ps ps d = (d, []) := by
  have h1 := patchPropsNew_self el ps ps d
    (fun k v hm => lookup_self ps k v hnd hm)
  have h2 := patchPropsOld_self el ps ps d
    (fun k v hm => contains_of_mem ps k v hm)
  simp [patchProps, h1, h2]

theorem stripElsL_length (cs : List VChild) :
    (stripElsL cs).length = cs.length := by
  induction cs with
  | nil => rfl
  | cons c rest ih => simp [stripElsL, ih]

theorem stripEls_key (v : VNode) : (stripEls v).key = v.key := by
  cases v
  rfl

theorem hasKeyed_stripElsL (cs : List VChild) :
    hasKeyedChildren (stripElsL cs) = hasKeyedChildren cs := by
  induction cs with
  | nil => rfl
  | cons c rest ih =>
    cases c with
    | text s => simp [stripElsL, stripElsC, hasKeyedChildren] at ih ⊢; exact ih
    | node v =>
      simp [stripElsL, stripElsC, hasKeyedChildren] at ih ⊢
      rw [stripEls_key, ih]

theorem sizeOf_node_mem (cs : List VChild) (v : VNode)
    (hmem : VChild.node v ∈ cs) : sizeOf v < sizeOf cs := by
  induction cs with
  | nil => cases hmem
  | cons c rest ih =>
    rcases List.mem_cons.mp hmem with heq | hm
    · subst heq
      simp
      omega
    · have := ih hm
      simp
      omega

theorem mountedUnkeyedL_mem (cs : List VChild) (v : VNode)
    (hall : mountedUnkeyedL cs = true) (hmem : VChild.node v ∈ cs) :
    mountedUnkeyed v = true := by
  induction cs with
  | nil => cases hmem
  | cons c rest ih =>
    simp [mountedUnkeyedL] at hall
    rcases List.mem_cons.mp hmem with heq | hm
    · subst heq
      simpa [mountedUnkeyedC] using hall.1
    · exact ih hall.2 hm

/-- The shared-prefix loop of the index algorithm is silent on a
self-diff of any child list whose descriptor members patch silently. -/
theorem unkeyedCommon_self (fuel : Nat)
    (ihp : ∀ (o : VNode) (d : Dom), sizeOf o ≤ fuel → mountedUnkeyed o = true →
            patch fuel o (stripEls o) d = (d, [], some o)) :
    ∀ (cs : List VChild) (i : Nat) (c0 : NodeId) (d : Dom),
      (∀ v, VChild.node v ∈ cs → sizeOf v ≤ fuel ∧ mountedUnkeyed v = true) →
      unkeyedCommon (patch fuel) c0 cs (stripElsL cs) i d = (d, [], some cs)
  | [], i, c0, d, _ => rfl
  | VChild.text s :: rest, i, c0, d, hall => by
    have ihr := unkeyedCommon_self fuel ihp rest (i + 1) c0 d
      (fun v hm => hall v (List.mem_cons_of_mem _ hm))
    simp [stripElsL, stripElsC, unkeyedCommon, ihr]
  | VChild.node v :: rest, i, c0, d, hall => by
    have hv := hall v (List.mem_cons_self _ _)
    have hp := ihp v d hv.1 hv.2
    have ihr := unkeyedCommon_self fuel ihp rest (i + 1) c0 d
      (fun v2 hm => hall v2 (List.mem_cons_of_mem _ hm))
    simp [stripElsL, stripElsC, unkeyedCommon, hp, ihr]

/-- C2, amended part: reconciling a mounted descriptor tree whose
child sequences contain no keyed child against an identical structural
copy performs no DOM operation at all (and rebinds every node of the
copy to the old live nodes, returning exactly the old tree). -/
theorem patch_self_unkeyed_silent (fuel : Nat) :
    ∀ (o : VNode) (d : Dom), sizeOf o ≤ fuel → mountedUnkeyed o = true →
      patch fuel o (stripEls o) d = (d, [], some o) := by
  induction fuel with
  | zero =>
    intro o d hsz _
    obtain ⟨t, ps, cs, k, e⟩ := o
    simp at hsz
  | succ fuel ih =>
    intro o d hsz hmu
    obtain ⟨t, ps, cs, k, e⟩ := o
    simp [mountedUnkeyed] at hmu
    obtain ⟨⟨⟨hsome, hnd⟩, hnk⟩, hml⟩ := hmu
    obtain ⟨e0, rfl⟩ := Option.isSome_iff_exists.mp hsome
    have hcommon := unkeyedCommon_self fuel ih cs 0 e0 d (fun v hm =>
      ⟨by
        have h1 := sizeOf_node_mem cs v hm
        have : sizeOf cs < sizeOf (VNode.mk t ps cs k (some e0)) := by
          simp
          omega
        omega,
       mountedUnkeyedL_mem cs v hml hm⟩)
    simp [patch, stripEls, patchChildren, hasKeyed_stripElsL, hnk,
      patchUnkeyedChildren, hcommon, stripElsL_length,
      patchProps_self e0 ps d hnd]

/-- A two-child keyed tree `div [li(key=1), li(key=2)]`. -/
def divKeyedAB : VNode :=
  h "div" [] (HChildren.arr [VChild.node (keyedLi 1), VChild.node (keyedLi 2)])

/-- Reconciling the mounted keyed tree against an identical structural
copy of itself (div = live node 1, children 2 and 3). -/
def idemKeyedRun : Dom × List DomOp × Option VNode :=
  patch 9 (mount divKeyedAB 0 rootDom).fst divKeyedAB
    (mount divKeyedAB 0 rootDom).snd.fst

/-- C2, counterexample part: reconciling a tree against an identical
structural copy is NOT always free of external-tree mutations.  For
the keyed tree `div [li(key=1), li(key=2)]` the diff succeeds and the
DOM order is unchanged, but the move pass still issues the redundant
move operation `insertBefore(li₁.el, li₂.el)`: the backward walk marks
the last old child as in order and then judges every earlier one
out of order (`newIndex > lastMovedIndex` fails on the identity
mapping read backward). -/
theorem patch_identical_keyed_not_silent :
    idemKeyedRun.snd.fst = [DomOp.insertBefore 1 2 3] ∧
    idemKeyedRun.snd.fst ≠ ([] : List DomOp) ∧
    idemKeyedRun.snd.snd.isSome = true := by
  decide

/-- A mounted unkeyed tree used to witness `patch_self_unkeyed_silent`:
`div {id:"a"} ["x", span []]` with live nodes 1 and 2. -/
def sampleUnkeyed : VNode :=
  VNode.mk "div" [("id", PVal.str "a")]
    [VChild.text "x", VChild.node (VNode.mk "span" [] [] none (some 2))]
    none (some 1)

/-- Witness for `patch_self_unkeyed_silent` at a concrete input. -/
theorem patch_self_unkeyed_silent_witness :
    sizeOf sampleUnkeyed ≤ 100000 ∧ mountedUnkeyed sampleUnkeyed = true ∧
    patch 100000 sampleUnkeyed (stripEls sampleUnkeyed) rootDom =
      (rootDom, [], some sampleUnkeyed) :=
  ⟨by decide, by decide,
   patch_self_unkeyed_silent 100000 sampleUnkeyed rootDom (by decide) (by decide)⟩

/-! ### Reactivity: write-triggers-rerun (C3), task-runner restore (C4),
no cross-field leakage (C8) -/

/-- Task bodies consisting only of reactive-field reads (the shape of
a pure render task). -/
def onlyReads : List Stmt → Bool
  | [] => true
  | Stmt.readF _ :: rest => onlyReads rest
  | _ => false

/-- Task bodies that read only the given field. -/
def readsOnlyF (f : String) : List Stmt → Bool
  | [] => true
  | Stmt.readF g :: rest => g == f && readsOnlyF f rest
  | _ => false

theorem track_fields (s : RState) (f : String) :
    (track s f).store = s.store ∧ (track s f).runLog = s.runLog ∧
    (track s f).activeEffect = s.activeEffect := by
  cases hae : s.activeEffect <;> simp [track, hae] <;> split <;> simp

theorem execStmts_onlyReads (env : TaskId → List Stmt) :
    ∀ (body : List Stmt) (fuel : Nat) (s : RState),
      onlyReads body = true → sizeOf body ≤ fuel →
      (execStmts env fuel body s).snd = some () ∧
      (execStmts env fuel body s).fst.store = s.store ∧
      (execStmts env fuel body s).fst.runLog = s.runLog ∧
      (execStmts env fuel body s).fst.activeEffect = s.activeEffect := by
  intro body
  induction body with
  | nil =>
    intro fuel s _ hsz
    cases fuel with
    | zero => simp at hsz
    | succ f => exact ⟨rfl, rfl, rfl, rfl⟩
  | cons st rest ih =>
    intro fuel s hor hsz
    cases fuel with
    | zero => simp at hsz
    | succ f =>
      cases st with
      | readF g =>
        have hsz2 : sizeOf rest ≤ f := by
          simp at hsz
          omega
        have ht := track_fields s g
        have ihr := ih f (track s g) (by simpa [onlyReads] using hor) hsz2
        simp only [execStmts]
        exact ⟨ihr.1, ihr.2.1.trans ht.1, ihr.2.2.1.trans ht.2.1,
          ihr.2.2.2.trans ht.2.2⟩
      | throwE => simp [onlyReads] at hor
      | nestedEffect t b => simp [onlyReads] at hor

theorem find_map_set (st : List (String × Int)) (f : String) (v : Int)
    (hany : st.any (fun e => e.fst = f) = true) :
    lookupStore (st.map (fun e => if e.fst = f then (f, v) else e)) f = some v := by
  induction st with
  | nil => simp at hany
  | cons e rest ih =>
    obtain ⟨k0, v0⟩ := e
    by_cases hk : k0 = f
    · subst hk
      simp [lookupStore, List.find?]
    · simp only [List.any_cons, Bool.or_eq_true, decide_eq_true_eq] at hany
      rcases hany with hany | hany
      · exact absurd hany hk
      · have hrest := ih (by simpa using hany)
        simp only [lookupStore] at hrest ⊢
        simp [List.find?, hk]
        simpa using hrest

theorem find_append_new (st : List (String × Int)) (f : String) (v : Int)
    (hnone : st.any (fun e => e.fst = f) = false) :
    lookupStore (st ++ [(f, v)]) f = some v := by
  induction st with
  | nil => simp [lookupStore, List.find?]
  | cons e rest ih =>
    obtain ⟨k0, v0⟩ := e
    simp only [List.any_cons, Bool.or_eq_false_iff] at hnone
    have hk : ¬ k0 = f := by simpa using hnone.1
    have hrest := ih hnone.2
    simp only [lookupStore] at hrest ⊢
    simp [List.find?, hk]
    simpa using hrest

theorem lookupStore_storeSet (st : List (String × Int)) (f : String) (v : Int) :
    lookupStore (storeSet st f v) f = some v := by
  simp only [storeSet]
  split
  next hany => exact find_map_set st f v hany
  next hany => exact find_append_new st f v (by rwa [Bool.not_eq_true] at hany)

/-- C3.  For a subject whose field `f` has exactly the task `T`
registered as its dependent, every write of any value `v` to `f` —
including a value equal to the current one; the set trap has no
equality short-circuit — performs the underlying write and then runs
`T` exactly once, synchronously, before the write returns: the run log
of the returned state extends the old one by exactly `[T]`. -/
theorem write_triggers_rerun (env : TaskId → List Stmt) (fuel : Nat)
    (s : RState) (f : String) (v : Int) (T : TaskId)
    (hdeps : lookupDeps s f = [T]) (hbody : onlyReads (env T) = true)
    (hfuel : sizeOf (env T) ≤ fuel) :
    ∃ s2, reactiveSet env fuel s f v = (s2, some ()) ∧
      lookupStore s2.store f = some v ∧
      s2.runLog = s.runLog ++ [T] := by
  obtain ⟨st, dp, ae, rl⟩ := s
  have hexec := execStmts_onlyReads env (env T) fuel
    (RState.mk (storeSet st f v) dp (some T) (rl ++ [T])) hbody hfuel
  cases hres : execStmts env fuel (env T)
      (RState.mk (storeSet st f v) dp (some T) (rl ++ [T])) with
  | mk s3 r =>
    rw [hres] at hexec
    obtain ⟨hr, hst, hrl, hae⟩ := hexec
    simp only at hr hst hrl hae
    subst hr
    refine ⟨{ s3 with activeEffect := ae }, ?_, ?_, ?_⟩
    · have hdeps1 : lookupDeps (RState.mk (storeSet st f v) dp ae rl) f = [T] :=
        hdeps
      simp only [reactiveSet, trigger]
      rw [show ({ RState.mk st dp ae rl with
            store := storeSet (RState.mk st dp ae rl).store f v } : RState) =
          RState.mk (storeSet st f v) dp ae rl from rfl]
      rw [hdeps1]
      simp only [runDeps, effectFn]
      rw [show ({ RState.mk (storeSet st f v) dp ae rl with
            activeEffect := some T,
            runLog := (RState.mk (storeSet st f v) dp ae rl).runLog ++ [T] } :
              RState) =
          RState.mk (storeSet st f v) dp (some T) (rl ++ [T]) from rfl]
      rw [hres]
    · simp only [RState.store]
      rw [hst]
      exact lookupStore_storeSet st f v
    · simp only [RState.runLog]
      rw [hrl]

/-- A concrete environment for the reactivity witnesses: task 7 reads
field `count`, everything else is empty. -/
def sampleEnv : TaskId → List Stmt :=
  fun t => if t = 7 then [Stmt.readF "count"] else []

/-- A concrete reactive state: `count = 1`, task 7 registered as the
single dependent of `count`. -/
def sampleRState : RState :=
  RState.mk [("count", 1)] [("count", [7])] none []

/-- Witness for `write_triggers_rerun`: writing `count := 1` — the
value it already holds — still re-runs task 7 exactly once. -/
theorem write_triggers_rerun_witness :
    lookupDeps sampleRState "count" = [7] ∧
    onlyReads (sampleEnv 7) = true ∧
    sizeOf (sampleEnv 7) ≤ 100000 ∧
    ∃ s2, reactiveSet sampleEnv 100000 sampleRState "count" 1 = (s2, some ()) ∧
      lookupStore s2.store "count" = some 1 ∧
      s2.runLog = sampleRState.runLog ++ [7] :=
  ⟨by decide, by decide, by decide,
   write_triggers_rerun sampleEnv 100000 sampleRState "count" 1 7
     (by decide) (by decide) (by decide)⟩

/-- Nested and sequential execution of task bodies never changes the
caller's current-task slot: every wrapper run inside restores what it
found. -/
theorem execStmts_preserves_active (env : TaskId → List Stmt) :
    ∀ (fuel : Nat) (body : List Stmt) (s : RState),
      (execStmts env fuel body s).fst.activeEffect = s.activeEffect := by
  intro fuel
  induction fuel with
  | zero => intro body s; rfl
  | succ f ih =>
    intro body s
    cases body with
    | nil => rfl
    | cons st rest =>
      cases st with
      | readF g =>
        simp only [execStmts]
        rw [ih rest (track s g)]
        exact (track_fields s g).2.2
      | throwE => rfl
      | nestedEffect t b =>
        simp only [execStmts]
        cases hr : (execStmts env f b
            { s with activeEffect := some t, runLog := s.runLog ++ [t] }).snd with
        | none => simp
        | some u => simp [ih rest]

/-- C4.  Running a task body through the task-runner wrapper
(`effectFn`, the wrapper `effect(fn)` builds and `trigger` re-invokes)
always restores the previous value of the process-wide current-task
slot: (1) the slot after the run equals the slot before it,
unconditionally — the restore sits in a `finally`, so it also happens
when the body throws; (2) the wrapper forwards the body's outcome
unchanged, so a thrown exception still propagates (after the restore);
(3) executing any body — including nested, re-entrant effect runs —
leaves the caller's slot intact, so nesting never corrupts the outer
tracking context. -/
theorem effect_restores_current_task (env : TaskId → List Stmt) (fuel : Nat)
    (t : TaskId) (body : List Stmt) (s : RState) :
    (effectFn env fuel t body s).fst.activeEffect = s.activeEffect ∧
    (effectFn env fuel t body s).snd =
      (execStmts env fuel body
        { s with activeEffect := some t, runLog := s.runLog ++ [t] }).snd ∧
    (execStmts env fuel body s).fst.activeEffect = s.activeEffect := by
  refine ⟨?_, rfl, execStmts_preserves_active env fuel body s⟩
  simp [effectFn]

/-! ### No cross-field leakage (C8) -/

theorem findDeps_map (dp : List (String × List TaskId)) (f g : String)
    (t : TaskId) (hne : ¬ g = f) :
    (dp.map (fun e => if e.fst = f then
        (e.fst, if t ∈ e.snd then e.snd else e.snd ++ [t]) else e)).find?
      (fun e => e.fst = g) = dp.find? (fun e => e.fst = g) := by
  induction dp with
  | nil => rfl
  | cons e rest ih =>
    obtain ⟨k0, l0⟩ := e
    by_cases hkf : k0 = f
    · subst hkf
      have hkg : ¬ (k0 = g) := fun hh => hne (hh ▸ rfl)
      simp [List.find?, hkg, ih]
    · by_cases hkg : k0 = g
      · subst hkg
        simp [List.find?, hkf]
      · simp [List.find?, hkf, hkg, ih]

theorem lookupDeps_track_other (s : RState) (f g : String) (hne : ¬ g = f) :
    lookupDeps (track s f) g = lookupDeps s g := by
  cases hae : s.activeEffect with
  | none => simp [track, hae]
  | some t =>
    simp only [track, hae]
    split
    · simp only [lookupDeps, findDeps_map s.deps f g t hne]
    · simp only [lookupDeps, List.find?_append]
      have hsing : (([(f, [t])] : List (String × List TaskId)).find?
          (fun e => e.fst = g)) = none := by
        have hfg : ¬ (f = g) := fun hh => hne hh.symm
        simp [List.find?, hfg]
      cases hfind : s.deps.find? (fun e => e.fst = g) <;> simp [hfind, hsing]

theorem readsOnlyF_onlyReads (f : String) :
    ∀ body, readsOnlyF f body = true → onlyReads body = true
  | [], _ => rfl
  | Stmt.readF g :: rest, hro => by
    simp only [readsOnlyF, Bool.and_eq_true] at hro
    simpa [onlyReads] using readsOnlyF_onlyReads f rest hro.2
  | Stmt.throwE :: rest, hro => by simp [readsOnlyF] at hro
  | Stmt.nestedEffect t b :: rest, hro => by simp [readsOnlyF] at hro

theorem execStmts_readsOnlyF_deps (env : TaskId → List Stmt) (f g : String)
    (hne : ¬ g = f) :
    ∀ (fuel : Nat) (body : List Stmt) (s : RState), readsOnlyF f body = true →
      lookupDeps (execStmts env fuel body s).fst g = lookupDeps s g := by
  intro fuel
  induction fuel with
  | zero => intro body s _; rfl
  | succ fl ih =>
    intro body s hro
    cases body with
    | nil => rfl
    | cons st rest =>
      cases st with
      | readF f2 =>
        simp only [readsOnlyF, Bool.and_eq_true, beq_iff_eq] at hro
        obtain ⟨rfl, hro2⟩ := hro
        simp only [execStmts]
        rw [ih rest (track s f2) hro2]
        exact lookupDeps_track_other s f2 g hne
      | throwE => simp [readsOnlyF] at hro
      | nestedEffect t b => simp [readsOnlyF] at hro

/-- C8.  A task `T` whose execution reads only field `f` is not
re-run by a write to a different field `g`: registering `T` (which
runs it once) leaves `g`'s dependency set as it was, so if nothing
depends on `g`, writing `g` performs the store write, triggers no
task at all, and returns with the run log (and dependency map)
unchanged. -/
theorem no_cross_field_leakage (env : TaskId → List Stmt) (fuel : Nat)
    (f g : String) (v : Int) (T : TaskId) (s : RState)
    (hne : ¬ g = f) (hdepsg : lookupDeps s g = [])
    (hbody : readsOnlyF f (env T) = true)
    (hfuel : sizeOf (env T) ≤ fuel) :
    ∃ s1 s2, effect env fuel T (env T) s = (s1, some ()) ∧
      reactiveSet env fuel s1 g v = (s2, some ()) ∧
      s2.runLog = s1.runLog ∧
      s2.deps = s1.deps ∧
      lookupStore s2.store g = some v := by
  obtain ⟨st, dp, ae, rl⟩ := s
  have hexec := execStmts_onlyReads env (env T) fuel
    (RState.mk st dp (some T) (rl ++ [T]))
    (readsOnlyF_onlyReads f (env T) hbody) hfuel
  have hdeps2 := execStmts_readsOnlyF_deps env f g hne fuel (env T)
    (RState.mk st dp (some T) (rl ++ [T])) hbody
  cases hres : execStmts env fuel (env T) (RState.mk st dp (some T) (rl ++ [T])) with
  | mk s3 r =>
    rw [hres] at hexec hdeps2
    obtain ⟨hr, hst, hrl, hae2⟩ := hexec
    simp only at hr hst hrl hae2 hdeps2
    subst hr
    refine ⟨{ s3 with activeEffect := ae },
      RState.mk (storeSet s3.store g v) s3.deps ae s3.runLog,
      ?_, ?_, rfl, rfl, lookupStore_storeSet _ g v⟩
    · show effectFn env fuel T (env T) (RState.mk st dp ae rl) = _
      simp only [effectFn]
      rw [show ({ RState.mk st dp ae rl with
            activeEffect := some T,
            runLog := (RState.mk st dp ae rl).runLog ++ [T] } :
              RState) =
          RState.mk st dp (some T) (rl ++ [T]) from rfl]
      rw [hres]
    · have hLD2 : lookupDeps (RState.mk (storeSet s3.store g v) s3.deps ae
          s3.runLog) g = [] := hdeps2.trans hdepsg
      show runDeps env fuel
        (lookupDeps (RState.mk (storeSet s3.store g v) s3.deps ae s3.runLog) g)
        (RState.mk (storeSet s3.store g v) s3.deps ae s3.runLog) = _
      rw [hLD2]
      rfl

/-- A state with one field and no registered dependents, used to
witness `no_cross_field_leakage`. -/
def sampleFresh : RState := RState.mk [("count", 1)] [] none []

/-- Witness for `no_cross_field_leakage`: after task 7 (which reads
only `count`) is registered, writing `other := 5` runs nothing. -/
theorem no_cross_field_leakage_witness :
    ¬ ("other" : String) = "count" ∧
    lookupDeps sampleFresh "other" = [] ∧
    readsOnlyF "count" (sampleEnv 7) = true ∧
    sizeOf (sampleEnv 7) ≤ 100000 ∧
    ∃ s1 s2, effect sampleEnv 100000 7 (sampleEnv 7) sampleFresh =
        (s1, some ()) ∧
      reactiveSet sampleEnv 100000 s1 "other" 5 = (s2, some ()) ∧
      s2.runLog = s1.runLog ∧
      s2.deps = s1.deps ∧
      lookupStore s2.store "other" = some 5 :=
  ⟨by decide, by decide, by decide, by decide,
   no_cross_field_leakage sampleEnv 100000 "count" "other" 5 7 sampleFresh
     (by decide) (by decide) (by decide) (by decide)⟩

/-! ### Attribute-diff minimality (C5) -/

/-- The operations `patchProps`'s first loop emits for one new
attribute entry (pure mirror of the per-entry step; the step's
document update carries exactly these calls). -/
def newPropOps (el : NodeId) (oldPs : List (String × PVal))
    (kv : String × PVal) : List DomOp :=
  if lookupProp oldPs kv.fst = some kv.snd then []
  else if isOn kv.fst then
    (match lookupProp oldPs kv.fst with
     | some ov => if pvalTruthy ov then
         [DomOp.removeEventListener el (evName kv.fst) ov]
       else []
     | none => []) ++ [DomOp.addEventListener el (evName kv.fst) kv.snd]
  else [DomOp.setAttribute el kv.fst kv.snd]

/-- The operations `patchProps`'s second loop emits for one old
attribute entry. -/
def oldPropOps (el : NodeId) (newPs : List (String × PVal))
    (kv : String × PVal) : List DomOp :=
  if containsProp newPs kv.fst then []
  else if isOn kv.fst then [DomOp.removeEventListener el (evName kv.fst) kv.snd]
  else [DomOp.removeAttribute el kv.fst]

theorem patchPropsNew_trace (el : NodeId) (oldPs : List (String × PVal)) :
    ∀ (qs : List (String × PVal)) (d : Dom),
      (patchPropsNew el oldPs qs d).snd = qs.flatMap (newPropOps el oldPs)
  | [], d => rfl
  | (k, v) :: rest, d => by
    by_cases h1 : lookupProp oldPs k = some v
    · simp [patchPropsNew, newPropOps, h1, patchPropsNew_trace el oldPs rest]
    · by_cases h2 : isOn k = true
      · cases hov : lookupProp oldPs k with
        | none =>
          simp [patchPropsNew, newPropOps, h1, h2, hov, addEventListenerD,
            patchPropsNew_trace el oldPs rest]
        | some ov =>
          have hne : ¬ ov = v := fun hh => h1 (by rw [hov, hh])
          by_cases h3 : pvalTruthy ov = true
          · simp [patchPropsNew, newPropOps, h1, h2, hov, h3, hne,
              addEventListenerD, removeEventListenerD,
              patchPropsNew_trace el oldPs rest]
          · simp [patchPropsNew, newPropOps, h1, h2, hov, h3, hne,
              addEventListenerD, patchPropsNew_trace el oldPs rest]
      · simp [patchPropsNew, newPropOps, h1, h2, setAttributeD,
          patchPropsNew_trace el oldPs rest]

theorem patchPropsOld_trace (el : NodeId) (newPs : List (String × PVal)) :
    ∀ (qs : List (String × PVal)) (d : Dom),
      (patchPropsOld el newPs qs d).snd = qs.flatMap (oldPropOps el newPs)
  | [], d => rfl
  | (k, v) :: rest, d => by
    by_cases h1 : containsProp newPs k = true
    · simp [patchPropsOld, oldPropOps, h1, patchPropsOld_trace el newPs rest]
    · by_cases h2 : isOn k = true
      · simp [patchPropsOld, oldPropOps, h1, h2, removeEventListenerD,
          patchPropsOld_trace el newPs rest]
      · simp [patchPropsOld, oldPropOps, h1, h2, removeAttributeD,
          patchPropsOld_trace el newPs rest]

/-- The calls `patchProps` makes, entry by entry: first the new-side
additions/updates, then the old-side removals. -/
theorem patchProps_trace (el : NodeId) (oldPs newPs : List (String × PVal))
    (d : Dom) :
    (patchProps el oldPs newPs d).snd =
      newPs.flatMap (newPropOps el oldPs) ++
        oldPs.flatMap (oldPropOps el newPs) := by
  simp [patchProps, patchPropsNew_trace, patchPropsOld_trace]

/-- The canonical external name an attribute acts on: listener
attributes act on their event name, plain attributes on themselves. -/
def canon (k : String) : Bool × String :=
  (isOn k, if isOn k then evName k else k)

/-- Whether a backend call touches the external name of attribute
`k`. -/
def opTouches (k : String) : DomOp → Bool
  | DomOp.setAttribute _ n _ => !(isOn k) && n == k
  | DomOp.removeAttribute _ n => !(isOn k) && n == k
  | DomOp.addEventListener _ e _ => isOn k && e == evName k
  | DomOp.removeEventListener _ e _ => isOn k && e == evName k
  | _ => false

/-- The attribute names of `oldPs ++ newPs` act on pairwise-distinct
external names (rules out aliases such as `onClick` vs `onclick`;
plain JS objects additionally have distinct keys). -/
def canonInjOn (oldPs newPs : List (String × PVal)) : Bool :=
  let keys := oldPs.map Prod.fst ++ newPs.map Prod.fst
  keys.all (fun k1 => keys.all (fun k2 =>
    !(canon k1 == canon k2) || k1 == k2))

theorem opTouches_newPropOps (el : NodeId) (oldPs : List (String × PVal))
    (k k' : String) (v' : PVal) (op : DomOp)
    (hop : op ∈ newPropOps el oldPs (k', v'))
    (ht : opTouches k op = true) : canon k' = canon k := by
  by_cases h1 : lookupProp oldPs k' = some v'
  · simp [newPropOps, h1] at hop
  · by_cases h2 : isOn k' = true
    · have hops : op = DomOp.addEventListener el (evName k') v' ∨
          ∃ ov, op = DomOp.removeEventListener el (evName k') ov := by
        simp [newPropOps, h1, h2] at hop
        rcases hop with hop | hop
        · cases hov : lookupProp oldPs k' with
          | none => rw [hov] at hop; simp at hop
          | some ov =>
            rw [hov] at hop
            by_cases h3 : pvalTruthy ov = true
            · simp [h3] at hop
              exact Or.inr ⟨ov, hop⟩
            · simp [h3] at hop
        · exact Or.inl hop
      have hnames : isOn k = true ∧ evName k' = evName k := by
        rcases hops with rfl | ⟨ov, rfl⟩ <;>
          simpa [opTouches, Bool.and_eq_true, beq_iff_eq] using
            (by simpa [opTouches] using ht : isOn k = true ∧
              (evName k' == evName k) = true)
      simp [canon, h2, hnames.1, hnames.2]
    · simp [newPropOps, h1, h2] at hop
      subst hop
      simp only [opTouches, Bool.and_eq_true, beq_iff_eq] at ht
      have hoffk : isOn k = false := by
        cases hk : isOn k
        · rfl
        · simp [hk] at ht
      obtain ⟨_, hkk⟩ := ht
      subst hkk
      simp [canon]

theorem opTouches_oldPropOps (el : NodeId) (newPs : List (String × PVal))
    (k k' : String) (v' : PVal) (op : DomOp)
    (hop : op ∈ oldPropOps el newPs (k', v'))
    (ht : opTouches k op = true) : canon k' = canon k := by
  by_cases h1 : containsProp newPs k' = true
  · simp [oldPropOps, h1] at hop
  · by_cases h2 : isOn k' = true
    · simp [oldPropOps, h1, h2] at hop
      subst hop
      simp only [opTouches, Bool.and_eq_true, beq_iff_eq] at ht
      simp [canon, h2, ht.1, ht.2]
    · simp [oldPropOps, h1, h2] at hop
      subst hop
      simp only [opTouches, Bool.and_eq_true, beq_iff_eq] at ht
      obtain ⟨_, hkk⟩ := ht
      subst hkk
      simp [canon]

theorem canonInjOn_eq (oldPs newPs : List (String × PVal))
    (hinj : canonInjOn oldPs newPs = true) (k1 k2 : String)
    (h1 : k1 ∈ oldPs.map Prod.fst ++ newPs.map Prod.fst)
    (h2 : k2 ∈ oldPs.map Prod.fst ++ newPs.map Prod.fst)
    (hc : canon k1 = canon k2) : k1 = k2 := by
  simp only [canonInjOn, List.all_eq_true] at hinj
  have hgot := hinj k1 h1 k2 h2
  simp [hc] at hgot
  exact hgot

theorem keysNodup_unique (ps : List (String × PVal)) (k : String)
    (v1 v2 : PVal) (hnd : keysNodup ps = true)
    (h1 : (k, v1) ∈ ps) (h2 : (k, v2) ∈ ps) : v1 = v2 := by
  induction ps with
  | nil => cases h1
  | cons e rest ih =>
    obtain ⟨k0, w⟩ := e
    simp only [keysNodup, Bool.and_eq_true] at hnd
    rcases List.mem_cons.mp h1 with he1 | hm1 <;>
      rcases List.mem_cons.mp h2 with he2 | hm2
    · cases he1
      cases he2
      rfl
    · cases he1
      exact absurd (contains_of_mem rest k v2 hm2) (by simpa using hnd.1)
    · cases he2
      exact absurd (contains_of_mem rest k v1 hm1) (by simpa using hnd.1)
    · exact ih hnd.2 hm1 hm2

/-- C5.  The attribute diff of two descriptors of equal kind:
(1) an attribute whose value is unchanged produces no external call
acting on its name — neither attribute writes nor listener rebinds
(assuming distinct external names, as JS object keys give);
(2) a plain attribute whose new value differs from the old one
(including absent) is set;
(3) a listener attribute whose value differs is bound;
(4) an attribute present in the old set and absent from the new one is
removed (listener unbound, plain attribute cleared);
(5) on the spec's example, old `{a:1,b:2}` vs new `{a:1,b:3,c:4}`
the calls are exactly `setAttribute b 3; setAttribute c 4` — `a` is
not touched. -/
theorem patchProps_minimal (el : NodeId) (oldPs newPs : List (String × PVal))
    (d : Dom) :
    (keysNodup newPs = true → canonInjOn oldPs newPs = true →
      ∀ k v, (k, v) ∈ newPs → lookupProp oldPs k = some v →
        ∀ op ∈ (patchProps el oldPs newPs d).snd, opTouches k op = false) ∧
    (∀ k v, (k, v) ∈ newPs → ¬ lookupProp oldPs k = some v → isOn k = false →
      DomOp.setAttribute el k v ∈ (patchProps el oldPs newPs d).snd) ∧
    (∀ k v, (k, v) ∈ newPs → ¬ lookupProp oldPs k = some v → isOn k = true →
      DomOp.addEventListener el (evName k) v ∈
        (patchProps el oldPs newPs d).snd) ∧
    (∀ k v, (k, v) ∈ oldPs → containsProp newPs k = false →
      (if isOn k then DomOp.removeEventListener el (evName k) v
       else DomOp.removeAttribute el k) ∈ (patchProps el oldPs newPs d).snd) ∧
    (∀ d2, (patchProps 5 [("a", PVal.num 1), ("b", PVal.num 2)]
        [("a", PVal.num 1), ("b", PVal.num 3), ("c", PVal.num 4)] d2).snd =
      [DomOp.setAttribute 5 "b" (PVal.num 3),
       DomOp.setAttribute 5 "c" (PVal.num 4)]) := by
  refine ⟨?_, ?_, ?_, ?_, ?_⟩
  · intro hnd hinj k v hmem hlook op hop
    rw [patchProps_trace] at hop
    cases hx : opTouches k op
    · rfl
    · exfalso
      rcases List.mem_append.mp hop with hop2 | hop2
      · obtain ⟨⟨k2, v2⟩, hm2, hin2⟩ := List.mem_flatMap.mp hop2
        have hc := opTouches_newPropOps el oldPs k k2 v2 op hin2 hx
        have hkk : k2 = k := canonInjOn_eq oldPs newPs hinj k2 k
          (List.mem_append.mpr (Or.inr (List.mem_map_of_mem Prod.fst hm2)))
          (List.mem_append.mpr (Or.inr (List.mem_map_of_mem Prod.fst hmem)))
          hc
        subst hkk
        have hv : v2 = v := keysNodup_unique newPs k2 v2 v hnd hm2 hmem
        subst hv
        rw [show newPropOps el oldPs (k2, v2) = [] from by
          simp [newPropOps, hlook]] at hin2
        cases hin2
      · obtain ⟨⟨k2, v2⟩, hm2, hin2⟩ := List.mem_flatMap.mp hop2
        have hc := opTouches_oldPropOps el newPs k k2 v2 op hin2 hx
        have hkk : k2 = k := canonInjOn_eq oldPs newPs hinj k2 k
          (List.mem_append.mpr (Or.inl (List.mem_map_of_mem Prod.fst hm2)))
          (List.mem_append.mpr (Or.inr (List.mem_map_of_mem Prod.fst hmem)))
          hc
        subst hkk
        rw [show oldPropOps el newPs (k2, v2) = [] from by
          simp [oldPropOps, contains_of_mem newPs k2 v hmem]] at hin2
        cases hin2
  · intro k v hmem hlook hoff
    rw [patchProps_trace]
    refine List.mem_append.mpr (Or.inl (List.mem_flatMap.mpr ⟨(k, v), hmem, ?_⟩))
    simp [newPropOps, hlook, hoff]
  · intro k v hmem hlook hon
    rw [patchProps_trace]
    refine List.mem_append.mpr (Or.inl (List.mem_flatMap.mpr ⟨(k, v), hmem, ?_⟩))
    simp [newPropOps, hlook, hon]
  · intro k v hmem hcont
    rw [patchProps_trace]
    refine List.mem_append.mpr (Or.inr (List.mem_flatMap.mpr ⟨(k, v), hmem, ?_⟩))
    cases hio : isOn k <;> simp [oldPropOps, hcont, hio]
  · intro d2
    rw [patchProps_trace]
    decide

/-- Witness for `patchProps_minimal` at concrete attribute sets: the
unchanged-attribute clause applied to `a` and the removal clause
applied to an `onClick` listener. -/
theorem patchProps_minimal_witness :
    keysNodup [("a", PVal.num 1), ("b", PVal.num 3)] = true ∧
    canonInjOn [("a", PVal.num 1), ("onClick", PVal.fn 2)]
      [("a", PVal.num 1), ("b", PVal.num 3)] = true ∧
    ("a", PVal.num 1) ∈ [("a", PVal.num 1), ("b", PVal.num 3)] ∧
    lookupProp [("a", PVal.num 1), ("onClick", PVal.fn 2)] "a" =
      some (PVal.num 1) ∧
    (∀ op ∈ (patchProps 9 [("a", PVal.num 1), ("onClick", PVal.fn 2)]
        [("a", PVal.num 1), ("b", PVal.num 3)] rootDom).snd,
      opTouches "a" op = false) ∧
    ("onClick", PVal.fn 2) ∈ [("a", PVal.num 1), ("onClick", PVal.fn 2)] ∧
    containsProp [("a", PVal.num 1), ("b", PVal.num 3)] "onClick" = false ∧
    (if isOn "onClick" then DomOp.removeEventListener 9 (evName "onClick") (PVal.fn 2)
     else DomOp.removeAttribute 9 "onClick") ∈
      (patchProps 9 [("a", PVal.num 1), ("onClick", PVal.fn 2)]
        [("a", PVal.num 1), ("b", PVal.num 3)] rootDom).snd :=
  ⟨by decide, by decide, by decide, by decide,
   (patchProps_minimal 9 [("a", PVal.num 1), ("onClick", PVal.fn 2)]
      [("a", PVal.num 1), ("b", PVal.num 3)] rootDom).1
     (by decide) (by decide) "a" (PVal.num 1) (by decide) (by decide),
   by decide, by decide,
   (patchProps_minimal 9 [("a", PVal.num 1), ("onClick", PVal.fn 2)]
      [("a", PVal.num 1), ("b", PVal.num 3)] rootDom).2.2.2.1
     "onClick" (PVal.fn 2) (by decide) (by decide)⟩

/-! ### The index (unkeyed) algorithm (C7) -/

theorem find_update_self (ns : List (NodeId × DNode)) (p : NodeId)
    (g : DNode → DNode) :
    (ns.map (fun e => if e.fst = p then (e.fst, g e.snd) else e)).find?
      (fun e => e.fst = p) =
    (ns.find? (fun e => e.fst = p)).map (fun e => (e.fst, g e.snd)) := by
  induction ns with
  | nil => rfl
  | cons e rest ih =>
    obtain ⟨i, nd⟩ := e
    by_cases hip : i = p
    · subst hip
      simp [List.find?]
    · simp [List.find?, hip, ih]

theorem find_update_other (ns : List (NodeId × DNode)) (p q : NodeId)
    (g : DNode → DNode) (hqp : ¬ q = p) :
    (ns.map (fun e => if e.fst = p then (e.fst, g e.snd) else e)).find?
      (fun e => e.fst = q) = ns.find? (fun e => e.fst = q) := by
  induction ns with
  | nil => rfl
  | cons e rest ih =>
    obtain ⟨i, nd⟩ := e
    by_cases hip : i = p
    · subst hip
      have hpq : ¬ i = q := fun hh => hqp hh.symm
      simp [List.find?, hpq, ih]
    · by_cases hiq : i = q
      · subst hiq
        simp [List.find?, hip]
      · simp [List.find?, hip, hiq, ih]

theorem lookupNode_updateNode_self (d : Dom) (p : NodeId) (g : DNode → DNode) :
    lookupNode (updateNode d p g) p = (lookupNode d p).map g := by
  simp only [lookupNode, updateNode, find_update_self]
  cases hf : d.nodes.find? (fun e => e.fst = p) <;> simp

theorem lookupNode_updateNode_other (d : Dom) (p q : NodeId) (g : DNode → DNode)
    (hqp : ¬ q = p) :
    lookupNode (updateNode d p g) q = lookupNode d q := by
  simp only [lookupNode, updateNode, find_update_other d.nodes p q g hqp]

theorem kidsOf_elem_of_mem (d : Dom) (p e : NodeId) (hmem : e ∈ kidsOf d p) :
    ∃ t a l kids txt, lookupNode d p = some (DNode.elem t a l kids txt) ∧
      kidsOf d p = kids := by
  unfold kidsOf at hmem ⊢
  cases hl : lookupNode d p with
  | none => rw [hl] at hmem; cases hmem
  | some nd =>
    cases nd with
    | textNode s2 => rw [hl] at hmem; cases hmem
    | elem t a l kids txt => exact ⟨t, a, l, kids, txt, rfl, rfl⟩

theorem kidsOf_updateNode_other (d : Dom) (p q : NodeId)
    (f : List NodeId → List NodeId) (hqp : ¬ q = p) :
    kidsOf (updateNode d p (mapKids f)) q = kidsOf d q := by
  simp [kidsOf, lookupNode_updateNode_other d p q (mapKids f) hqp]

theorem removeChildD_spec (d : Dom) (p e : NodeId) (hmem : e ∈ kidsOf d p) :
    removeChildD p e d =
      (updateNode d p (mapKids (fun kids => kids.erase e)),
       [DomOp.removeChild p e], some ()) ∧
    kidsOf (updateNode d p (mapKids (fun kids => kids.erase e))) p =
      (kidsOf d p).erase e := by
  obtain ⟨t, a, l, kids, txt, hl, hk⟩ := kidsOf_elem_of_mem d p e hmem
  constructor
  · simp [removeChildD, hmem]
  · simp [kidsOf, lookupNode_updateNode_self, hl, mapKids, hk]

/-- The bound live node of an indexed child, when it is a structured
child. -/
def itemEl : Nat × VChild → Option NodeId
  | (_, VChild.node v) => v.el
  | (_, VChild.text _) => none

/-- The shrink phase of the index algorithm on structured children:
given the (descending) indexed extra old children, whose live nodes
`es` are distinct children of the container, it removes exactly those
live nodes, one `removeChild` each, in the given (end-backward)
order. -/
theorem removeLoopU_spec (container : NodeId) :
    ∀ (items : List (Nat × VChild)) (es : List NodeId) (d : Dom),
      items.map itemEl = es.map some →
      es.Nodup →
      (∀ e ∈ es, e ∈ kidsOf d container) →
      ∃ d2, removeLoopU container items d =
          (d2, es.map (DomOp.removeChild container), some ()) ∧
        kidsOf d2 container = es.foldl List.erase (kidsOf d container)
  | [], es, d, hmap, _, _ => by
    cases es with
    | nil => exact ⟨d, rfl, rfl⟩
    | cons e es2 => simp at hmap
  | (i, c) :: rest, es, d, hmap, hnd, hmem => by
    cases es with
    | nil => simp at hmap
    | cons e es2 =>
      simp only [List.map_cons, List.cons.injEq] at hmap
      obtain ⟨hel, hmap2⟩ := hmap
      cases c with
      | text s2 => simp [itemEl] at hel
      | node v =>
        simp only [itemEl] at hel
        have hmem1 : e ∈ kidsOf d container := hmem e (List.mem_cons_self _ _)
        obtain ⟨hrem, hkids⟩ := removeChildD_spec d container e hmem1
        have hnd2 := (List.nodup_cons.mp hnd).2
        have hne : ∀ e2 ∈ es2, ¬ e2 = e := fun e2 hm hh =>
          (List.nodup_cons.mp hnd).1 (hh ▸ hm)
        have hmem2 : ∀ e2 ∈ es2,
            e2 ∈ kidsOf (updateNode d container
              (mapKids (fun kids => kids.erase e))) container := by
          intro e2 hm
          rw [hkids]
          exact List.mem_erase_of_ne (hne e2 hm) |>.mpr
            (hmem e2 (List.mem_cons_of_mem _ hm))
        obtain ⟨d2, hrun, hk2⟩ := removeLoopU_spec container rest es2
          (updateNode d container (mapKids (fun kids => kids.erase e)))
          hmap2 hnd2 hmem2
        refine ⟨d2, ?_, ?_⟩
        · simp [removeLoopU, hel, hrem, hrun]
        · rw [hk2, hkids]
          rfl

/-- Unkeyed children `X`, `Y`, `Z` and the replacement `X'` of the
spec's shrink example. -/
def uX : VNode := h "div" [("id", PVal.str "x1")] (HChildren.arr [])

/-- See `uX`. -/
def uX2 : VNode := h "div" [("id", PVal.str "x2")] (HChildren.arr [])

/-- See `uX`. -/
def uY : VNode := h "p" [] (HChildren.arr [])

/-- See `uX`. -/
def uZ : VNode := h "span" [] (HChildren.arr [])

/-- Old unkeyed children `[X, Y, Z]` under a `ul` (mounted: ul = 1,
X = 2, Y = 3, Z = 4). -/
def shrinkOld : VNode :=
  h "ul" [] (HChildren.arr [VChild.node uX, VChild.node uY, VChild.node uZ])

/-- New unkeyed children `[X']`. -/
def shrinkNew : VNode := h "ul" [] (HChildren.arr [VChild.node uX2])

/-- Reconciling mounted `[X, Y, Z]` against `[X']`. -/
def shrinkRun : Dom × List DomOp × Option VNode :=
  patch 9 (mount shrinkOld 0 rootDom).fst shrinkNew
    (mount shrinkOld 0 rootDom).snd.fst

/-- Old unkeyed children `[X]` and new `[X', Y]` (growth). -/
def growOld : VNode := h "ul" [] (HChildren.arr [VChild.node uX])

/-- See `growOld`. -/
def growNew : VNode :=
  h "ul" [] (HChildren.arr [VChild.node uX2, VChild.node uY])

/-- Reconciling mounted `[X]` against `[X', Y]`. -/
def growRun : Dom × List DomOp × Option VNode :=
  patch 9 (mount growOld 0 rootDom).fst growNew
    (mount growOld 0 rootDom).snd.fst

/-- C7.  The index (unkeyed) algorithm: (1) in general, the shrink
phase walks the extra old children in the given end-backward order and
removes exactly their live nodes, one `removeChild` per child;
(2) on the spec's example, old `[X, Y, Z]` vs new `[X']` patches `X`
in place (one `setAttribute` on X's live node 2) and removes the live
nodes of `Z` then `Y` (4 then 3, backward), leaving the container with
`[2]`; (3) extra new children are materialized and appended in order
(old `[X]` vs new `[X', Y]` patches X in place, then creates and
appends Y's node). -/
theorem patchUnkeyed_shrink_phases :
    (∀ (container : NodeId) (items : List (Nat × VChild)) (es : List NodeId)
        (d : Dom),
      items.map itemEl = es.map some → es.Nodup →
      (∀ e ∈ es, e ∈ kidsOf d container) →
      ∃ d2, removeLoopU container items d =
          (d2, es.map (DomOp.removeChild container), some ()) ∧
        kidsOf d2 container = es.foldl List.erase (kidsOf d container)) ∧
    (shrinkRun.snd.fst = [DomOp.setAttribute 2 "id" (PVal.str "x2"),
        DomOp.removeChild 1 4, DomOp.removeChild 1 3] ∧
      kidsOf shrinkRun.fst 1 = [2] ∧ shrinkRun.snd.snd.isSome = true) ∧
    (growRun.snd.fst = [DomOp.setAttribute 2 "id" (PVal.str "x2"),
        DomOp.createElement 3 "p", DomOp.appendChild 1 3] ∧
      kidsOf growRun.fst 1 = [2, 3] ∧ growRun.snd.snd.isSome = true) :=
  ⟨fun container items es d h1 h2 h3 =>
     removeLoopU_spec container items es d h1 h2 h3,
   ⟨by decide, by decide, by decide⟩, ⟨by decide, by decide, by decide⟩⟩

/-- A document with container 1 holding children 2, 3, 4, used to
witness the general shrink-phase clause. -/
def removalDom : Dom :=
  Dom.mk 5 [(0, DNode.elem "root" [] [] [1] none),
            (1, DNode.elem "ul" [] [] [2, 3, 4] none),
            (2, DNode.elem "div" [] [] [] none),
            (3, DNode.elem "p" [] [] [] none),
            (4, DNode.elem "span" [] [] [] none)]

/-- Witness for `patchUnkeyed_shrink_phases` at a concrete removal
list (indices 2 and 1, live nodes 4 and 3, end backward). -/
theorem patchUnkeyed_shrink_phases_witness :
    [((2 : Nat), VChild.node (VNode.mk "span" [] [] none (some 4))),
     ((1 : Nat), VChild.node (VNode.mk "p" [] [] none (some 3)))].map itemEl =
      [4, 3].map some ∧
    ([4, 3] : List NodeId).Nodup ∧
    (∀ e ∈ ([4, 3] : List NodeId), e ∈ kidsOf removalDom 1) ∧
    (∃ d2, removeLoopU 1
        [((2 : Nat), VChild.node (VNode.mk "span" [] [] none (some 4))),
         ((1 : Nat), VChild.node (VNode.mk "p" [] [] none (some 3)))]
        removalDom =
        (d2, [4, 3].map (DomOp.removeChild 1), some ()) ∧
      kidsOf d2 1 = [4, 3].foldl List.erase (kidsOf removalDom 1)) :=
  ⟨by decide, by decide, by decide,
   patchUnkeyed_shrink_phases.1 1
     [((2 : Nat), VChild.node (VNode.mk "span" [] [] none (some 4))),
      ((1 : Nat), VChild.node (VNode.mk "p" [] [] none (some 3)))]
     [4, 3] removalDom (by decide) (by decide) (by decide)⟩

/-! ### The reserved key attribute (C10) -/

/-- The backend call `mount`'s attribute loop makes for one
attribute. -/
def mountPropOp (el : NodeId) (kv : String × PVal) : List DomOp :=
  if isOn kv.fst then [DomOp.addEventListener el (evName kv.fst) kv.snd]
  else [DomOp.setAttribute el kv.fst kv.snd]

theorem mountProps_trace (el : NodeId) :
    ∀ (ps : List (String × PVal)) (d : Dom),
      (mountProps el ps d).snd = ps.flatMap (mountPropOp el)
  | [], d => rfl
  | (k, v) :: rest, d => by
    by_cases hk : isOn k = true
    · simp [mountProps, mountPropOp, hk, addEventListenerD,
        mountProps_trace el rest]
    · simp [mountProps, mountPropOp, hk, setAttributeD,
        mountProps_trace el rest]

theorem lookupProp_mem (ps : List (String × PVal)) (k : String) (v : PVal)
    (hl : lookupProp ps k = some v) : (k, v) ∈ ps := by
  induction ps with
  | nil => simp [lookupProp, List.find?] at hl
  | cons e rest ih =>
    obtain ⟨k0, v0⟩ := e
    by_cases hk : k0 = k
    · subst hk
      simp [lookupProp, List.find?] at hl
      subst hl
      exact List.mem_cons_self _ _
    · simp only [lookupProp, List.find?] at hl
      simp [hk] at hl
      exact List.mem_cons_of_mem _ (ih (by simpa [lookupProp] using hl))

/-- C10.  The constructor `h` copies the reserved `key` attribute into
the descriptor's key field and leaves the attribute mapping untouched;
consequently, during materialization the key is also applied to the
external node as a plain attribute named `key` (its name does not
carry the listener prefix), and it takes part in the attribute diff
like any other attribute: changing the key value on otherwise-equal
descriptors emits a `setAttribute` for `key`. -/
theorem h_key_kept_and_applied (tag : String) (props : List (String × PVal))
    (ch : HChildren) (v : PVal) (hk : lookupProp props "key" = some v) :
    (h tag props ch).key = some v ∧
    (h tag props ch).props = props ∧
    (∀ (c : NodeId) (d : Dom),
      DomOp.setAttribute d.nextId "key" v ∈ (mount (h tag props ch) c d).snd.snd) ∧
    (∀ (el : NodeId) (d : Dom) (w : PVal), ¬ w = v →
      (patchProps el [("key", v)] [("key", w)] d).snd =
        [DomOp.setAttribute el "key" w]) := by
  refine ⟨by simp [h, hk, VNode.key], rfl, ?_, ?_⟩
  · intro c d
    have hmem := lookupProp_mem props "key" v hk
    show DomOp.setAttribute d.nextId "key" v ∈
      (mount (VNode.mk tag props
        (match ch with | HChildren.arr cs => cs | HChildren.single c2 => [c2])
        (lookupProp props "key") none) c d).snd.snd
    simp only [mount, createElementD, mountProps_trace]
    refine List.mem_append.mpr (Or.inl (List.mem_append.mpr (Or.inl
      (List.mem_append.mpr (Or.inr ?_)))))
    exact List.mem_flatMap.mpr ⟨("key", v), hmem, by
      simp [mountPropOp, show isOn "key" = false from by decide]⟩
  · intro el d w hw
    have hvw : ¬ v = w := fun hh => hw hh.symm
    rw [patchProps_trace]
    have hlk : lookupProp [("key", v)] "key" = some v := by
      simp [lookupProp, List.find?]
    simp [newPropOps, oldPropOps, hlk, hvw, containsProp,
      show isOn "key" = false from by decide]

/-- Witness for `h_key_kept_and_applied` at a concrete keyed
descriptor. -/
theorem h_key_kept_and_applied_witness :
    lookupProp [("id", PVal.str "a"), ("key", PVal.num 7)] "key" =
      some (PVal.num 7) ∧
    ((h "li" [("id", PVal.str "a"), ("key", PVal.num 7)]
        (HChildren.arr [])).key = some (PVal.num 7) ∧
      (h "li" [("id", PVal.str "a"), ("key", PVal.num 7)]
        (HChildren.arr [])).props = [("id", PVal.str "a"), ("key", PVal.num 7)] ∧
      (∀ (c : NodeId) (d : Dom),
        DomOp.setAttribute d.nextId "key" (PVal.num 7) ∈
          (mount (h "li" [("id", PVal.str "a"), ("key", PVal.num 7)]
            (HChildren.arr [])) c d).snd.snd) ∧
      (∀ (el : NodeId) (d : Dom) (w : PVal), ¬ w = PVal.num 7 →
        (patchProps el [("key", PVal.num 7)] [("key", w)] d).snd =
          [DomOp.setAttribute el "key" w])) :=
  ⟨by decide,
   h_key_kept_and_applied "li" [("id", PVal.str "a"), ("key", PVal.num 7)]
     (HChildren.arr []) (PVal.num 7) (by decide)⟩

/-! ### Kind-mismatch replacement (C6) -/

/-- The child list stored in a DOM node. -/
def kidsList : DNode → List NodeId
  | DNode.elem _ _ _ kids _ => kids
  | DNode.textNode _ => []

/-- Every node id and every stored child id is below the fresh-id
counter. -/
def domBounded (d : Dom) : Prop :=
  ∀ e ∈ d.nodes, e.fst < d.nextId ∧ ∀ k ∈ kidsList e.snd, k < d.nextId

instance (d : Dom) : Decidable (domBounded d) := by
  unfold domBounded
  infer_instance

/-- The id denotes an element node of the document. -/
def isElemNode (d : Dom) (c : NodeId) : Bool :=
  match lookupNode d c with
  | some (DNode.elem _ _ _ _ _) => true
  | _ => false

theorem find_map_all (ns : List (NodeId × DNode)) (g : DNode → DNode)
    (q : NodeId) :
    (ns.map (fun e => (e.fst, g e.snd))).find? (fun e => e.fst = q) =
      (ns.find? (fun e => e.fst = q)).map (fun e => (e.fst, g e.snd)) := by
  induction ns with
  | nil => rfl
  | cons e rest ih =>
    obtain ⟨i, nd⟩ := e
    by_cases hiq : i = q
    · subst hiq
      simp [List.find?]
    · simp [List.find?, hiq, ih]

theorem find_none_of_bound (ns : List (NodeId × DNode)) (m : NodeId) :
    (∀ e ∈ ns, e.fst < m) → ns.find? (fun e => e.fst = m) = none := by
  induction ns with
  | nil => intro _; rfl
  | cons e rest ih =>
    intro hb
    have hlt := hb e (List.mem_cons_self _ _)
    have hne : ¬ e.fst = m := Nat.ne_of_lt hlt
    rw [List.find?_cons_of_neg _ (by simp only [decide_eq_true_eq]; exact hne)]
    exact ih (fun e2 hm => hb e2 (List.mem_cons_of_mem _ hm))

theorem lookupNode_detach (d : Dom) (n q : NodeId) :
    lookupNode (detach d n) q =
      (lookupNode d q).map (mapKids (fun kids => kids.erase n)) := by
  simp only [lookupNode, detach, find_map_all]
  cases hf : d.nodes.find? (fun e => e.fst = q) <;> simp

theorem kidsOf_detach (d : Dom) (n q : NodeId) :
    kidsOf (detach d n) q = (kidsOf d q).erase n := by
  simp only [kidsOf, lookupNode_detach]
  cases hf : lookupNode d q with
  | none => simp
  | some nd => cases nd <;> simp [mapKids]

theorem lookupNode_createElement (d : Dom) (tag : String) (q : NodeId)
    (hb : domBounded d) :
    lookupNode (createElementD tag d).snd.fst q =
      if q = d.nextId then some (DNode.elem tag [] [] [] none)
      else lookupNode d q := by
  simp only [lookupNode, createElementD, List.find?_append]
  by_cases hq : q = d.nextId
  · subst hq
    rw [find_none_of_bound d.nodes d.nextId (fun e hm => (hb e hm).1)]
    simp [List.find?]
  · cases hf : d.nodes.find? (fun e => e.fst = q) with
    | some e => simp [hf, hq]
    | none =>
      have hne : ¬ (d.nextId : NodeId) = q := fun hh => hq hh.symm
      simp [hf, hq, List.find?, hne]

theorem kidsOf_createElement (d : Dom) (tag : String) (q : NodeId)
    (hb : domBounded d) :
    kidsOf (createElementD tag d).snd.fst q = kidsOf d q := by
  simp only [kidsOf, lookupNode_createElement d tag q hb]
  by_cases hq : q = d.nextId
  · subst hq
    have hnone : lookupNode d d.nextId = none := by
      simp only [lookupNode]
      rw [find_none_of_bound d.nodes d.nextId (fun e hm => (hb e hm).1)]
      rfl
    simp [hnone]
  · simp [hq]

theorem domBounded_createElement (d : Dom) (tag : String) (hb : domBounded d) :
    domBounded (createElementD tag d).snd.fst := by
  intro e hm
  have hm2 : e ∈ d.nodes ++ [(d.nextId, DNode.elem tag [] [] [] none)] := hm
  have hn : (createElementD tag d).snd.fst.nextId = d.nextId + 1 := rfl
  rw [hn]
  rcases List.mem_append.mp hm2 with hm3 | hm3
  · obtain ⟨h1, h2⟩ := hb e hm3
    refine ⟨Nat.lt_succ_of_lt h1, ?_⟩
    intro k hk
    exact Nat.lt_succ_of_lt (h2 k hk)
  · have he : e = (d.nextId, DNode.elem tag [] [] [] none) := by simpa using hm3
    subst he
    refine ⟨Nat.lt_succ_self _, ?_⟩
    intro k hk
    simp [kidsList] at hk

theorem isElemNode_createElement_self (d : Dom) (tag : String)
    (hb : domBounded d) :
    isElemNode (createElementD tag d).snd.fst d.nextId = true := by
  simp [isElemNode, lookupNode_createElement d tag d.nextId hb]

theorem kidsOf_eq_kidsList (d : Dom) (i : NodeId) :
    kidsOf d i = (match lookupNode d i with
      | some nd => kidsList nd
      | none => []) := by
  unfold kidsOf
  cases lookupNode d i with
  | none => rfl
  | some nd => cases nd <;> rfl

theorem mapKids_erase_of_not_mem (n : NodeId) (nd : DNode)
    (h : ¬ n ∈ kidsList nd) :
    mapKids (fun kids => kids.erase n) nd = nd := by
  cases nd with
  | elem t a l kids s =>
    simp only [kidsList] at h
    simp only [mapKids]
    rw [List.erase_of_not_mem h]
  | textNode s => rfl

theorem present_lt_of_bounded (d : Dom) (q : NodeId) (hb : domBounded d)
    (h : ¬ lookupNode d q = none) : q < d.nextId := by
  simp only [lookupNode] at h
  cases hf : d.nodes.find? (fun e => e.fst = q) with
  | none => rw [hf] at h; simp at h
  | some e =>
    have hm := List.mem_of_find?_eq_some hf
    have hp := List.find?_some hf
    simp only [decide_eq_true_eq] at hp
    have h1 := (hb e hm).1
    rw [hp] at h1
    exact h1

theorem kids_lt_of_bounded (d : Dom) (p k : NodeId) (hb : domBounded d)
    (h : k ∈ kidsOf d p) : k < d.nextId := by
  cases hf : lookupNode d p with
  | none => simp only [kidsOf_eq_kidsList, hf] at h; cases h
  | some nd =>
    simp only [kidsOf_eq_kidsList, hf] at h
    simp only [lookupNode] at hf
    cases hg : d.nodes.find? (fun e => e.fst = p) with
    | none => rw [hg] at hf; simp at hf
    | some e =>
      rw [hg] at hf
      simp only [Option.map_some', Option.some.injEq] at hf
      have hm := List.mem_of_find?_eq_some hg
      have h2 := (hb e hm).2
      rw [← hf] at h
      exact h2 k h

theorem lookupNode_detach_not_mem (d : Dom) (n q : NodeId)
    (h : ¬ n ∈ kidsOf d q) :
    lookupNode (detach d n) q = lookupNode d q := by
  rw [lookupNode_detach]
  cases hf : lookupNode d q with
  | none => rfl
  | some nd =>
    show some (mapKids (fun kids => kids.erase n) nd) = some nd
    refine congrArg some (mapKids_erase_of_not_mem n nd ?_)
    intro hmem
    apply h
    simp only [kidsOf_eq_kidsList, hf]
    exact hmem

theorem isElemNode_detach (d : Dom) (n q : NodeId) :
    isElemNode (detach d n) q = isElemNode d q := by
  simp only [isElemNode, lookupNode_detach]
  cases hf : lookupNode d q with
  | none => rfl
  | some nd => cases nd <;> rfl

theorem domBounded_detach (d : Dom) (n : NodeId) (hb : domBounded d) :
    domBounded (detach d n) := by
  intro e hm
  have hm2 : e ∈ d.nodes.map
      (fun e => (e.fst, mapKids (fun kids => kids.erase n) e.snd)) := hm
  obtain ⟨e0, hm0, he⟩ := List.mem_map.mp hm2
  obtain ⟨i0, nd0⟩ := e0
  obtain ⟨h1, h2⟩ := hb (i0, nd0) hm0
  subst he
  refine ⟨h1, ?_⟩
  intro k hk
  apply h2
  cases nd0 with
  | elem t a l kids s =>
    simp only [mapKids, kidsList] at hk
    simp only [kidsList]
    exact List.mem_of_mem_erase hk
  | textNode s =>
    simp [mapKids, kidsList] at hk

theorem domBounded_updateNode_f (d : Dom) (p n : NodeId)
    (f : List NodeId → List NodeId)
    (hf : ∀ l k, k ∈ f l → k ∈ l ∨ k = n) (hn : n < d.nextId)
    (hb : domBounded d) :
    domBounded (updateNode d p (mapKids f)) := by
  intro e hm
  have hm2 : e ∈ d.nodes.map
      (fun e => if e.fst = p then (e.fst, mapKids f e.snd) else e) := hm
  obtain ⟨e0, hm0, he⟩ := List.mem_map.mp hm2
  obtain ⟨h1, h2⟩ := hb e0 hm0
  by_cases hp : e0.fst = p
  · rw [if_pos hp] at he
    subst he
    refine ⟨h1, ?_⟩
    intro k hk
    cases hnd : e0.snd with
    | elem t a l kids s =>
      rw [hnd] at hk
      simp only [mapKids, kidsList] at hk
      rcases hf kids k hk with hin | heq
      · apply h2
        rw [hnd]
        simp only [kidsList]
        exact hin
      · rw [heq]; exact hn
    | textNode s =>
      rw [hnd] at hk
      simp [mapKids, kidsList] at hk
  · rw [if_neg hp] at he
    subst he
    exact ⟨h1, h2⟩

theorem kidsOf_updateNode_mapKids_elem (d : Dom) (p : NodeId)
    (f : List NodeId → List NodeId) (he : isElemNode d p = true) :
    kidsOf (updateNode d p (mapKids f)) p = f (kidsOf d p) := by
  simp only [isElemNode] at he
  cases hf : lookupNode d p with
  | none => rw [hf] at he; simp at he
  | some nd =>
    cases nd with
    | elem t a l kids s =>
      simp only [kidsOf_eq_kidsList, lookupNode_updateNode_self, hf,
        Option.map_some', mapKids, kidsList]
    | textNode s => rw [hf] at he; simp at he

theorem isElemNode_updateNode_mapKids (d : Dom) (p q : NodeId)
    (f : List NodeId → List NodeId) :
    isElemNode (updateNode d p (mapKids f)) q = isElemNode d q := by
  by_cases hq : q = p
  · subst hq
    simp only [isElemNode, lookupNode_updateNode_self]
    cases hf : lookupNode d q with
    | none => rfl
    | some nd => cases nd <;> rfl
  · simp only [isElemNode, lookupNode_updateNode_other d p q _ hq]

theorem mem_insertIntoList (n a k : NodeId) (l : List NodeId)
    (h : k ∈ insertIntoList n a l) : k ∈ l ∨ k = n := by
  induction l with
  | nil =>
    simp only [insertIntoList] at h
    rcases List.mem_singleton.mp h with heq
    exact Or.inr heq
  | cons x xs ih =>
    simp only [insertIntoList] at h
    by_cases hxa : x = a
    · rw [if_pos hxa] at h
      rcases List.mem_cons.mp h with heq | hm
      · exact Or.inr heq
      · exact Or.inl hm
    · rw [if_neg hxa] at h
      rcases List.mem_cons.mp h with heq | hm
      · exact Or.inl (by rw [heq]; exact List.mem_cons_self _ _)
      · rcases ih hm with hin | heq
        · exact Or.inl (List.mem_cons_of_mem _ hin)
        · exact Or.inr heq

/-- `insertBefore` places the new node exactly before the first
occurrence of the anchor. -/
theorem insertIntoList_at (n a : NodeId) (pre suf : List NodeId)
    (ha : ¬ a ∈ pre) :
    insertIntoList n a (pre ++ a :: suf) = pre ++ n :: a :: suf := by
  induction pre with
  | nil => simp [insertIntoList]
  | cons x xs ih =>
    have hxa : ¬ x = a := fun hh => ha (by rw [hh]; exact List.mem_cons_self _ _)
    have ha2 : ¬ a ∈ xs := fun hm => ha (List.mem_cons_of_mem _ hm)
    calc insertIntoList n a ((x :: xs) ++ a :: suf)
        = if x = a then n :: x :: (xs ++ a :: suf)
          else x :: insertIntoList n a (xs ++ a :: suf) := rfl
      _ = x :: insertIntoList n a (xs ++ a :: suf) := if_neg hxa
      _ = x :: (xs ++ n :: a :: suf) := by rw [ih ha2]
      _ = (x :: xs) ++ n :: a :: suf := rfl

/-- The node transformations used by the attribute/listener primitives:
they rewrite an element's attributes or listeners, keep the child list,
and leave text nodes alone. -/
def propUpdater (g : DNode → DNode) : Prop :=
  (∀ t a l kids s, ∃ t2 a2 l2 s2,
    g (DNode.elem t a l kids s) = DNode.elem t2 a2 l2 kids s2) ∧
  (∀ s, g (DNode.textNode s) = DNode.textNode s)

theorem kidsList_propUpdater (g : DNode → DNode) (hg : propUpdater g)
    (nd : DNode) : kidsList (g nd) = kidsList nd := by
  cases nd with
  | elem t a l kids s =>
    obtain ⟨t2, a2, l2, s2, he⟩ := hg.1 t a l kids s
    rw [he]
    rfl
  | textNode s => rw [hg.2 s]

theorem kidsOf_updateNode_propUpdater (d : Dom) (p : NodeId)
    (g : DNode → DNode) (hg : propUpdater g) (q : NodeId) :
    kidsOf (updateNode d p g) q = kidsOf d q := by
  by_cases hq : q = p
  · subst hq
    simp only [kidsOf_eq_kidsList, lookupNode_updateNode_self]
    cases hf : lookupNode d q with
    | none => rfl
    | some nd =>
      simp only [Option.map_some']
      rw [kidsList_propUpdater g hg nd]
  · simp only [kidsOf_eq_kidsList, lookupNode_updateNode_other d p q g hq]

theorem isElemNode_updateNode_propUpdater (d : Dom) (p : NodeId)
    (g : DNode → DNode) (hg : propUpdater g) (q : NodeId) :
    isElemNode (updateNode d p g) q = isElemNode d q := by
  by_cases hq : q = p
  · subst hq
    simp only [isElemNode, lookupNode_updateNode_self]
    cases hf : lookupNode d q with
    | none => rfl
    | some nd =>
      cases nd with
      | elem t a l kids s =>
        obtain ⟨t2, a2, l2, s2, he⟩ := hg.1 t a l kids s
        simp only [Option.map_some', he]
      | textNode s =>
        simp only [Option.map_some', hg.2 s]
  · simp only [isElemNode, lookupNode_updateNode_other d p q g hq]

theorem domBounded_updateNode_propUpdater (d : Dom) (p : NodeId)
    (g : DNode → DNode) (hg : propUpdater g) (hb : domBounded d) :
    domBounded (updateNode d p g) := by
  intro e hm
  have hm2 : e ∈ d.nodes.map
      (fun e => if e.fst = p then (e.fst, g e.snd) else e) := hm
  obtain ⟨e0, hm0, he⟩ := List.mem_map.mp hm2
  obtain ⟨i0, nd0⟩ := e0
  obtain ⟨h1, h2⟩ := hb (i0, nd0) hm0
  by_cases hp : (i0, nd0).fst = p
  · rw [if_pos hp] at he
    subst he
    refine ⟨h1, ?_⟩
    intro k hk
    rw [kidsList_propUpdater g hg] at hk
    exact h2 k hk
  · rw [if_neg hp] at he
    subst he
    exact ⟨h1, h2⟩

theorem propUpdater_setAttr (k : String) (v : PVal) :
    propUpdater (fun nd => match nd with
      | DNode.elem t a l kids s => DNode.elem t (setAttrList a k v) l kids s
      | n => n) :=
  ⟨fun t a l kids s => ⟨t, setAttrList a k v, l, s, rfl⟩, fun s => rfl⟩

theorem propUpdater_addListener (ev : String) (f : PVal) :
    propUpdater (fun nd => match nd with
      | DNode.elem t a l kids s =>
          DNode.elem t a (if (ev, f) ∈ l then l else l ++ [(ev, f)]) kids s
      | n => n) :=
  ⟨fun t a l kids s => ⟨t, a, if (ev, f) ∈ l then l else l ++ [(ev, f)], s, rfl⟩,
   fun s => rfl⟩

/-- The attribute loop of `mount` only rewrites attributes and
listeners of the target element: node ids, child lists, node kinds and
the other nodes' contents are untouched, and boundedness is kept. -/
theorem mountProps_preserves (el : NodeId) (ps : List (String × PVal)) :
    ∀ d : Dom,
      (mountProps el ps d).fst.nextId = d.nextId ∧
      (∀ q, ¬ q = el → lookupNode (mountProps el ps d).fst q = lookupNode d q) ∧
      (∀ q, kidsOf (mountProps el ps d).fst q = kidsOf d q) ∧
      (∀ q, isElemNode (mountProps el ps d).fst q = isElemNode d q) ∧
      (domBounded d → domBounded (mountProps el ps d).fst) := by
  induction ps with
  | nil => exact fun d => ⟨rfl, fun q _ => rfl, fun q => rfl, fun q => rfl, id⟩
  | cons kv rest ih =>
    intro d
    obtain ⟨k, v⟩ := kv
    by_cases hon : isOn k
    · have hd : (mountProps el ((k, v) :: rest) d).fst =
          (mountProps el rest (addEventListenerD el (evName k) v d).fst).fst := by
        simp only [mountProps, if_pos hon]
      rw [hd]
      have hup := propUpdater_addListener (evName k) v
      obtain ⟨ih1, ih2, ih3, ih4, ih5⟩ :=
        ih (addEventListenerD el (evName k) v d).fst
      refine ⟨ih1, ?_, ?_, ?_, ?_⟩
      · intro q hq
        rw [ih2 q hq]
        exact lookupNode_updateNode_other d el q _ hq
      · intro q
        rw [ih3 q]
        exact kidsOf_updateNode_propUpdater d el _ hup q
      · intro q
        rw [ih4 q]
        exact isElemNode_updateNode_propUpdater d el _ hup q
      · intro hb
        exact ih5 (domBounded_updateNode_propUpdater d el _ hup hb)
    · have hd : (mountProps el ((k, v) :: rest) d).fst =
          (mountProps el rest (setAttributeD el k v d).fst).fst := by
        simp only [mountProps, if_neg hon]
      rw [hd]
      have hup := propUpdater_setAttr k v
      obtain ⟨ih1, ih2, ih3, ih4, ih5⟩ := ih (setAttributeD el k v d).fst
      refine ⟨ih1, ?_, ?_, ?_, ?_⟩
      · intro q hq
        rw [ih2 q hq]
        exact lookupNode_updateNode_other d el q _ hq
      · intro q
        rw [ih3 q]
        exact kidsOf_updateNode_propUpdater d el _ hup q
      · intro q
        rw [ih4 q]
        exact isElemNode_updateNode_propUpdater d el _ hup q
      · intro hb
        exact ih5 (domBounded_updateNode_propUpdater d el _ hup hb)

theorem lookupNode_createTextNode (d : Dom) (s : String) (q : NodeId)
    (hb : domBounded d) :
    lookupNode (createTextNodeD s d).snd.fst q =
      if q = d.nextId then some (DNode.textNode s)
      else lookupNode d q := by
  simp only [lookupNode, createTextNodeD, List.find?_append]
  by_cases hq : q = d.nextId
  · subst hq
    rw [find_none_of_bound d.nodes d.nextId (fun e hm => (hb e hm).1)]
    simp [List.find?]
  · cases hf : d.nodes.find? (fun e => e.fst = q) with
    | some e => simp [hf, hq]
    | none =>
      have hne : ¬ (d.nextId : NodeId) = q := fun hh => hq hh.symm
      simp [hf, hq, List.find?, hne]

theorem kidsOf_createTextNode (d : Dom) (s : String) (q : NodeId)
    (hb : domBounded d) :
    kidsOf (createTextNodeD s d).snd.fst q = kidsOf d q := by
  simp only [kidsOf_eq_kidsList, lookupNode_createTextNode d s q hb]
  by_cases hq : q = d.nextId
  · subst hq
    have hnone : lookupNode d d.nextId = none := by
      simp only [lookupNode]
      rw [find_none_of_bound d.nodes d.nextId (fun e hm => (hb e hm).1)]
      rfl
    simp [hnone, kidsList]
  · simp [hq]

theorem isElemNode_createTextNode (d : Dom) (s : String) (q : NodeId)
    (hb : domBounded d) (hq : q < d.nextId) :
    isElemNode (createTextNodeD s d).snd.fst q = isElemNode d q := by
  simp only [isElemNode, lookupNode_createTextNode d s q hb,
    if_neg (Nat.ne_of_lt hq)]

theorem domBounded_createTextNode (d : Dom) (s : String) (hb : domBounded d) :
    domBounded (createTextNodeD s d).snd.fst := by
  intro e hm
  have hm2 : e ∈ d.nodes ++ [(d.nextId, DNode.textNode s)] := hm
  have hn : (createTextNodeD s d).snd.fst.nextId = d.nextId + 1 := rfl
  rw [hn]
  rcases List.mem_append.mp hm2 with hm3 | hm3
  · obtain ⟨h1, h2⟩ := hb e hm3
    refine ⟨Nat.lt_succ_of_lt h1, ?_⟩
    intro k hk
    exact Nat.lt_succ_of_lt (h2 k hk)
  · have he : e = (d.nextId, DNode.textNode s) := by simpa using hm3
    subst he
    refine ⟨Nat.lt_succ_self _, ?_⟩
    intro k hk
    simp [kidsList] at hk

theorem lookupNode_fresh_none (d : Dom) (hb : domBounded d) :
    lookupNode d d.nextId = none := by
  simp only [lookupNode]
  rw [find_none_of_bound d.nodes d.nextId (fun e hm => (hb e hm).1)]
  rfl

theorem kidsOf_appendChildD_self (p n : NodeId) (d : Dom)
    (hp : isElemNode d p = true) :
    kidsOf (appendChildD p n d).fst p = ((kidsOf d p).erase n) ++ [n] := by
  show kidsOf (updateNode (detach d n) p (mapKids (fun kids => kids ++ [n]))) p = _
  rw [kidsOf_updateNode_mapKids_elem, kidsOf_detach]
  rw [isElemNode_detach]
  exact hp

theorem kidsOf_appendChildD_other (p n q : NodeId) (d : Dom) (hq : ¬ q = p) :
    kidsOf (appendChildD p n d).fst q = (kidsOf d q).erase n := by
  show kidsOf (updateNode (detach d n) p (mapKids _)) q = _
  rw [kidsOf_updateNode_other _ _ _ _ hq, kidsOf_detach]

theorem lookupNode_appendChildD_other (p n q : NodeId) (d : Dom)
    (hq : ¬ q = p) (hnq : ¬ n ∈ kidsOf d q) :
    lookupNode (appendChildD p n d).fst q = lookupNode d q := by
  show lookupNode (updateNode (detach d n) p (mapKids _)) q = _
  rw [lookupNode_updateNode_other _ _ _ _ hq, lookupNode_detach_not_mem _ _ _ hnq]

theorem isElemNode_appendChildD (p n q : NodeId) (d : Dom) :
    isElemNode (appendChildD p n d).fst q = isElemNode d q := by
  show isElemNode (updateNode (detach d n) p (mapKids _)) q = _
  rw [isElemNode_updateNode_mapKids, isElemNode_detach]

theorem domBounded_appendChildD (p n : NodeId) (d : Dom)
    (hn : n < d.nextId) (hb : domBounded d) :
    domBounded (appendChildD p n d).fst := by
  show domBounded (updateNode (detach d n) p (mapKids (fun kids => kids ++ [n])))
  refine domBounded_updateNode_f (detach d n) p n _ ?_ hn (domBounded_detach d n hb)
  intro l k hk
  rcases List.mem_append.mp hk with h | h
  · exact Or.inl h
  · exact Or.inr (List.mem_singleton.mp h)

theorem erase_append_self (n : NodeId) (l : List NodeId) (h : ¬ n ∈ l) :
    (l ++ [n]).erase n = l := by
  rw [List.erase_append_right _ h]
  simp

theorem afterIn_append (e : NodeId) (pre suf : List NodeId) (h : ¬ e ∈ pre) :
    afterIn e (pre ++ e :: suf) = suf.head? := by
  induction pre with
  | nil => simp [afterIn]
  | cons x xs ih =>
    have hx : ¬ x = e := fun hh => h (by rw [hh]; exact List.mem_cons_self _ _)
    calc afterIn e ((x :: xs) ++ e :: suf)
        = if x = e then (xs ++ e :: suf).head? else afterIn e (xs ++ e :: suf) :=
          rfl
      _ = afterIn e (xs ++ e :: suf) := if_neg hx
      _ = suf.head? := ih (fun hm => h (List.mem_cons_of_mem _ hm))

/-- What `mount(v, container)` does to the document: the descriptor's
root gets the next fresh id, that id is appended to the container's
child list (and nowhere else), every other pre-existing node is
untouched, fresh child links only appear under the container or under
strictly older fresh nodes, and boundedness is preserved. -/
def MountOk (v : VNode) : Prop :=
  ∀ (c : NodeId) (d : Dom), domBounded d → isElemNode d c = true →
    (mount v c d).fst.el = some d.nextId ∧
    d.nextId < (mount v c d).snd.fst.nextId ∧
    kidsOf (mount v c d).snd.fst c = kidsOf d c ++ [d.nextId] ∧
    (∀ q, ¬ q = c → q < d.nextId →
      lookupNode (mount v c d).snd.fst q = lookupNode d q) ∧
    (∀ q i, i ∈ kidsOf (mount v c d).snd.fst q →
      i ∈ kidsOf d q ∨ (d.nextId ≤ i ∧ (q = c ∨ (d.nextId ≤ q ∧ q < i)))) ∧
    domBounded (mount v c d).snd.fst ∧
    isElemNode (mount v c d).snd.fst c = true

/-- The analogous statement for the child loop of `mount`. -/
def MountChildrenOk (cs : List VChild) : Prop :=
  ∀ (c : NodeId) (d : Dom), domBounded d → isElemNode d c = true →
    d.nextId ≤ (mountChildren cs c d).snd.fst.nextId ∧
    (∃ L, kidsOf (mountChildren cs c d).snd.fst c = kidsOf d c ++ L ∧
      ∀ i ∈ L, d.nextId ≤ i) ∧
    (∀ q, ¬ q = c → q < d.nextId →
      lookupNode (mountChildren cs c d).snd.fst q = lookupNode d q) ∧
    (∀ q i, i ∈ kidsOf (mountChildren cs c d).snd.fst q →
      i ∈ kidsOf d q ∨ (d.nextId ≤ i ∧ (q = c ∨ (d.nextId ≤ q ∧ q < i)))) ∧
    domBounded (mountChildren cs c d).snd.fst ∧
    isElemNode (mountChildren cs c d).snd.fst c = true

theorem K_trans (d1 d2 d3 : Dom) (c : NodeId)
    (h12 : ∀ q i, i ∈ kidsOf d2 q →
      i ∈ kidsOf d1 q ∨ (d1.nextId ≤ i ∧ (q = c ∨ (d1.nextId ≤ q ∧ q < i))))
    (h23 : ∀ q i, i ∈ kidsOf d3 q →
      i ∈ kidsOf d2 q ∨ (d2.nextId ≤ i ∧ (q = c ∨ (d2.nextId ≤ q ∧ q < i))))
    (hn : d1.nextId ≤ d2.nextId) :
    ∀ q i, i ∈ kidsOf d3 q →
      i ∈ kidsOf d1 q ∨ (d1.nextId ≤ i ∧ (q = c ∨ (d1.nextId ≤ q ∧ q < i))) := by
  intro q i hi
  rcases h23 q i hi with h | ⟨hge, hcase⟩
  · exact h12 q i h
  · right
    refine ⟨Nat.le_trans hn hge, ?_⟩
    rcases hcase with h | ⟨hq, hlt⟩
    · exact Or.inl h
    · exact Or.inr ⟨Nat.le_trans hn hq, hlt⟩

theorem mountChildrenOk_nil : MountChildrenOk [] := by
  intro c d hb hc
  refine ⟨Nat.le_refl _, ⟨[], (List.append_nil _).symm, ?_⟩,
    fun q _ _ => rfl, fun q i hi => Or.inl hi, hb, hc⟩
  intro i hi
  cases hi

theorem mountChildrenOk_text (s : String) (rest : List VChild)
    (ih : MountChildrenOk rest) : MountChildrenOk (VChild.text s :: rest) := by
  intro c d hb hc
  have hcsome : ¬ lookupNode d c = none := by
    intro hn
    unfold isElemNode at hc
    rw [hn] at hc
    cases hc
  have hclt : c < d.nextId := present_lt_of_bounded d c hb hcsome
  have hcne : ¬ c = d.nextId := Nat.ne_of_lt hclt
  have hdomEq : (mountChildren (VChild.text s :: rest) c d).snd.fst =
      (mountChildren rest c (appendChildD c d.nextId (createTextNodeD s d).snd.fst).fst).snd.fst := rfl
  rw [hdomEq]
  have hbT : domBounded (createTextNodeD s d).snd.fst := domBounded_createTextNode d s hb
  have helTc : isElemNode (createTextNodeD s d).snd.fst c = true := by
    rw [isElemNode_createTextNode d s c hb hclt]
    exact hc
  have hnotmem : ¬ d.nextId ∈ kidsOf d c :=
    fun hm => Nat.lt_irrefl _ (kids_lt_of_bounded d c d.nextId hb hm)
  have hkDAc : kidsOf (appendChildD c d.nextId (createTextNodeD s d).snd.fst).fst c = kidsOf d c ++ [d.nextId] := by
    rw [kidsOf_appendChildD_self c d.nextId _ helTc,
      kidsOf_createTextNode d s c hb, List.erase_of_not_mem hnotmem]
  have hlDA : ∀ q, ¬ q = c → q < d.nextId →
      lookupNode (appendChildD c d.nextId (createTextNodeD s d).snd.fst).fst q = lookupNode d q := by
    intro q hqc hqlt
    have hnq : ¬ d.nextId ∈ kidsOf (createTextNodeD s d).snd.fst q := by
      rw [kidsOf_createTextNode d s q hb]
      exact fun hm => Nat.lt_irrefl _ (kids_lt_of_bounded d q d.nextId hb hm)
    rw [lookupNode_appendChildD_other c d.nextId q _ hqc hnq,
      lookupNode_createTextNode d s q hb, if_neg (Nat.ne_of_lt hqlt)]
  have helDAc : isElemNode (appendChildD c d.nextId (createTextNodeD s d).snd.fst).fst c = true := by
    rw [isElemNode_appendChildD]
    exact helTc
  have hbA : domBounded (appendChildD c d.nextId (createTextNodeD s d).snd.fst).fst :=
    domBounded_appendChildD c d.nextId _ (Nat.lt_succ_self _) hbT
  have hKA : ∀ q i, i ∈ kidsOf (appendChildD c d.nextId (createTextNodeD s d).snd.fst).fst q →
      i ∈ kidsOf d q ∨ (d.nextId ≤ i ∧ (q = c ∨ (d.nextId ≤ q ∧ q < i))) := by
    intro q i hi
    by_cases hqc : q = c
    · subst hqc
      rw [hkDAc] at hi
      rcases List.mem_append.mp hi with h | h
      · exact Or.inl h
      · have : i = d.nextId := List.mem_singleton.mp h
        rw [this]
        exact Or.inr ⟨Nat.le_refl _, Or.inl rfl⟩
    · rw [kidsOf_appendChildD_other c d.nextId q _ hqc] at hi
      have hi2 : i ∈ kidsOf (createTextNodeD s d).snd.fst q := List.mem_of_mem_erase hi
      rw [kidsOf_createTextNode d s q hb] at hi2
      exact Or.inl hi2
  obtain ⟨hRn, ⟨L2, hRc, hL2⟩, hRl, hRK, hRb, hRe⟩ := ih c (appendChildD c d.nextId (createTextNodeD s d).snd.fst).fst hbA helDAc
  refine ⟨?_, ⟨d.nextId :: L2, ?_, ?_⟩, ?_, ?_, hRb, hRe⟩
  · exact Nat.le_trans (Nat.le_succ _) hRn
  · rw [hRc, hkDAc, List.append_assoc, List.singleton_append]
  · intro i hi
    rcases List.mem_cons.mp hi with heq | hm
    · rw [heq]
    · exact Nat.le_of_succ_le (hL2 i hm)
  · intro q hqc hqlt
    rw [hRl q hqc (Nat.lt_succ_of_lt hqlt), hlDA q hqc hqlt]
  · exact K_trans d (appendChildD c d.nextId (createTextNodeD s d).snd.fst).fst (mountChildren rest c (appendChildD c d.nextId (createTextNodeD s d).snd.fst).fst).snd.fst c hKA hRK (Nat.le_succ _)

theorem mountChildrenOk_node (v : VNode) (rest : List VChild)
    (hv : MountOk v) (ih : MountChildrenOk rest) :
    MountChildrenOk (VChild.node v :: rest) := by
  intro c d hb hc
  have hdomEq : (mountChildren (VChild.node v :: rest) c d).snd.fst =
      (mountChildren rest c (mount v c d).snd.fst).snd.fst := rfl
  rw [hdomEq]
  obtain ⟨hMel, hMn, hMc, hMl, hMK, hMb, hMe⟩ := hv c d hb hc
  obtain ⟨hRn, ⟨L2, hRc, hL2⟩, hRl, hRK, hRb, hRe⟩ := ih c (mount v c d).snd.fst hMb hMe
  refine ⟨?_, ⟨d.nextId :: L2, ?_, ?_⟩, ?_, ?_, hRb, hRe⟩
  · exact Nat.le_trans (Nat.le_of_lt hMn) hRn
  · rw [hRc, hMc, List.append_assoc, List.singleton_append]
  · intro i hi
    rcases List.mem_cons.mp hi with heq | hm
    · rw [heq]
    · exact Nat.le_trans (Nat.le_of_lt hMn) (hL2 i hm)
  · intro q hqc hqlt
    rw [hRl q hqc (Nat.lt_trans hqlt hMn), hMl q hqc hqlt]
  · exact K_trans d (mount v c d).snd.fst (mountChildren rest c (mount v c d).snd.fst).snd.fst c hMK hRK (Nat.le_of_lt hMn)

theorem mountOk_step (tag : String) (props : List (String × PVal))
    (children : List VChild) (key : Option PVal) (e0 : Option NodeId)
    (hch : MountChildrenOk children) :
    MountOk (VNode.mk tag props children key e0) := by
  intro c d hb hc
  have hcsome : ¬ lookupNode d c = none := by
    intro hn
    unfold isElemNode at hc
    rw [hn] at hc
    cases hc
  have hclt : c < d.nextId := present_lt_of_bounded d c hb hcsome
  have hcne : ¬ c = d.nextId := Nat.ne_of_lt hclt
  have hfstEq : (mount (VNode.mk tag props children key e0) c d).fst =
      VNode.mk tag props (mountChildren children d.nextId (mountProps d.nextId props (createElementD tag d).snd.fst).fst).fst key (some d.nextId) := rfl
  have hdomEq : (mount (VNode.mk tag props children key e0) c d).snd.fst =
      (appendChildD c d.nextId (mountChildren children d.nextId (mountProps d.nextId props (createElementD tag d).snd.fst).fst).snd.fst).fst := rfl
  rw [hfstEq, hdomEq]
  have hb1 : domBounded (createElementD tag d).snd.fst := domBounded_createElement d tag hb
  have hel1 : isElemNode (createElementD tag d).snd.fst d.nextId = true :=
    isElemNode_createElement_self d tag hb
  obtain ⟨hPn, hPl, hPk, hPe, hPb⟩ := mountProps_preserves d.nextId props (createElementD tag d).snd.fst
  have hbP : domBounded (mountProps d.nextId props (createElementD tag d).snd.fst).fst := hPb hb1
  have helP : isElemNode (mountProps d.nextId props (createElementD tag d).snd.fst).fst d.nextId = true := by
    rw [hPe]
    exact hel1
  obtain ⟨hKn, ⟨L, hKc, hLge⟩, hKl, hKK, hKb, hKe⟩ := hch d.nextId (mountProps d.nextId props (createElementD tag d).snd.fst).fst hbP helP
  have hPn2 : ((mountProps d.nextId props (createElementD tag d).snd.fst).fst).nextId = d.nextId + 1 := hPn
  have hKn2 : d.nextId + 1 ≤ ((mountChildren children d.nextId (mountProps d.nextId props (createElementD tag d).snd.fst).fst).snd.fst).nextId := by
    rw [← hPn2]
    exact hKn
  have hl1c : lookupNode (createElementD tag d).snd.fst c = lookupNode d c := by
    rw [lookupNode_createElement d tag c hb, if_neg hcne]
  have hlPc : lookupNode (mountProps d.nextId props (createElementD tag d).snd.fst).fst c = lookupNode d c := by
    rw [hPl c hcne, hl1c]
  have hlKc : lookupNode (mountChildren children d.nextId (mountProps d.nextId props (createElementD tag d).snd.fst).fst).snd.fst c = lookupNode d c := by
    rw [hKl c hcne (by rw [hPn2]; exact Nat.lt_succ_of_lt hclt), hlPc]
  have hkidsKc : kidsOf (mountChildren children d.nextId (mountProps d.nextId props (createElementD tag d).snd.fst).fst).snd.fst c = kidsOf d c := by
    simp only [kidsOf_eq_kidsList, hlKc]
  have helKc : isElemNode (mountChildren children d.nextId (mountProps d.nextId props (createElementD tag d).snd.fst).fst).snd.fst c = true := by
    unfold isElemNode at hc ⊢
    rw [hlKc]
    exact hc
  have hnotmem : ¬ d.nextId ∈ kidsOf d c :=
    fun hm => Nat.lt_irrefl _ (kids_lt_of_bounded d c d.nextId hb hm)
  have hkidsKq : ∀ q, ¬ q = d.nextId → q < d.nextId + 1 →
      kidsOf (mountChildren children d.nextId (mountProps d.nextId props (createElementD tag d).snd.fst).fst).snd.fst q = kidsOf d q := by
    intro q hq hqlt
    have h1 : lookupNode (mountChildren children d.nextId (mountProps d.nextId props (createElementD tag d).snd.fst).fst).snd.fst q = lookupNode d q := by
      rw [hKl q hq (by rw [hPn2]; exact hqlt), hPl q hq,
        lookupNode_createElement d tag q hb, if_neg hq]
    simp only [kidsOf_eq_kidsList, h1]
  have hKd : ∀ q i, i ∈ kidsOf (mountChildren children d.nextId (mountProps d.nextId props (createElementD tag d).snd.fst).fst).snd.fst q →
      i ∈ kidsOf d q ∨
        (d.nextId + 1 ≤ i ∧ (q = d.nextId ∨ (d.nextId + 1 ≤ q ∧ q < i))) := by
    intro q i hi
    rcases hKK q i hi with hin | ⟨hge, hcase⟩
    · left
      rw [hPk q, kidsOf_createElement d tag q hb] at hin
      exact hin
    · right
      rw [hPn2] at hge
      refine ⟨hge, ?_⟩
      rcases hcase with hqel | ⟨hqge, hqi⟩
      · exact Or.inl hqel
      · rw [hPn2] at hqge
        exact Or.inr ⟨hqge, hqi⟩
  have hnotmemK : ∀ q, ¬ q = c → q < d.nextId → ¬ d.nextId ∈ kidsOf (mountChildren children d.nextId (mountProps d.nextId props (createElementD tag d).snd.fst).fst).snd.fst q := by
    intro q hqc hqlt hm
    rcases hKd q d.nextId hm with hin | ⟨hge, _⟩
    · exact Nat.lt_irrefl _ (kids_lt_of_bounded d q d.nextId hb hin)
    · exact Nat.lt_irrefl _ (Nat.lt_of_succ_le hge)
  have hkidsF : kidsOf (appendChildD c d.nextId (mountChildren children d.nextId (mountProps d.nextId props (createElementD tag d).snd.fst).fst).snd.fst).fst c = kidsOf d c ++ [d.nextId] := by
    rw [kidsOf_appendChildD_self c d.nextId _ helKc, hkidsKc,
      List.erase_of_not_mem hnotmem]
  refine ⟨rfl, ?_, hkidsF, ?_, ?_, ?_, ?_⟩
  · exact Nat.lt_of_lt_of_le (Nat.lt_succ_self _) hKn2
  · intro q hqc hqlt
    rw [lookupNode_appendChildD_other c d.nextId q _ hqc (hnotmemK q hqc hqlt),
      hKl q (Nat.ne_of_lt hqlt) (by rw [hPn2]; exact Nat.lt_succ_of_lt hqlt),
      hPl q (Nat.ne_of_lt hqlt), lookupNode_createElement d tag q hb,
      if_neg (Nat.ne_of_lt hqlt)]
  · intro q i hi
    by_cases hqc : q = c
    · subst hqc
      rw [hkidsF] at hi
      rcases List.mem_append.mp hi with h | h
      · exact Or.inl h
      · have heq : i = d.nextId := List.mem_singleton.mp h
        rw [heq]
        exact Or.inr ⟨Nat.le_refl _, Or.inl rfl⟩
    · rw [kidsOf_appendChildD_other c d.nextId q _ hqc] at hi
      have hi2 : i ∈ kidsOf (mountChildren children d.nextId (mountProps d.nextId props (createElementD tag d).snd.fst).fst).snd.fst q := List.mem_of_mem_erase hi
      rcases hKd q i hi2 with hin | ⟨hge, hcase⟩
      · exact Or.inl hin
      · right
        refine ⟨Nat.le_of_succ_le hge, ?_⟩
        right
        rcases hcase with hqel | ⟨hqge, hqi⟩
        · rw [hqel]
          exact ⟨Nat.le_refl _, Nat.lt_of_succ_le hge⟩
        · exact ⟨Nat.le_of_succ_le hqge, hqi⟩
  · exact domBounded_appendChildD c d.nextId _ (Nat.lt_of_succ_le hKn2) hKb
  · rw [isElemNode_appendChildD]
    exact helKc

theorem mountOk_all : ∀ N : Nat,
    (∀ v : VNode, sizeOf v ≤ N → MountOk v) ∧
    (∀ cs : List VChild, sizeOf cs ≤ N → MountChildrenOk cs) := by
  intro N
  induction N using Nat.strong_induction_on with
  | _ N ih =>
    constructor
    · intro v hv
      cases v with
      | mk tag props children key e0 =>
        apply mountOk_step
        have hlt : sizeOf children < sizeOf (VNode.mk tag props children key e0) := by
          simp only [VNode.mk.sizeOf_spec]
          omega
        exact (ih (sizeOf children) (Nat.lt_of_lt_of_le hlt hv)).2 children
          (Nat.le_refl _)
    · intro cs hcs
      cases cs with
      | nil => exact mountChildrenOk_nil
      | cons ch rest =>
        cases ch with
        | text str =>
          apply mountChildrenOk_text
          have hlt : sizeOf rest < sizeOf (VChild.text str :: rest) := by
            simp only [List.cons.sizeOf_spec]
            omega
          exact (ih (sizeOf rest) (Nat.lt_of_lt_of_le hlt hcs)).2 rest (Nat.le_refl _)
        | node v =>
          apply mountChildrenOk_node
          · have hlt : sizeOf v < sizeOf (VChild.node v :: rest) := by
              simp only [List.cons.sizeOf_spec, VChild.node.sizeOf_spec]
              omega
            exact (ih (sizeOf v) (Nat.lt_of_lt_of_le hlt hcs)).1 v (Nat.le_refl _)
          · have hlt : sizeOf rest < sizeOf (VChild.node v :: rest) := by
              simp only [List.cons.sizeOf_spec]
              omega
            exact (ih (sizeOf rest) (Nat.lt_of_lt_of_le hlt hcs)).2 rest
              (Nat.le_refl _)

theorem mountOk (v : VNode) : MountOk v :=
  (mountOk_all (sizeOf v)).1 v (Nat.le_refl _)

/-- C6: when the two descriptors' kinds (tags) differ, reconciliation
removes the old live node from its parent, materializes the new subtree
fresh (its root gets the previously unused id `d.nextId`), reinserts the
new root at the old node's exact sibling position (before the recorded
next sibling, appended when there was none), and the path returns a
result rather than an error. -/
theorem patch_kind_mismatch (fuel : Nat) (o n : VNode) (d : Dom)
    (p e : NodeId) (pre suf : List NodeId)
    (htag : ¬ o.tag = n.tag) (hel : o.el = some e)
    (hb : domBounded d) (hpar : parentOf d e = some p)
    (hkids : kidsOf d p = pre ++ e :: suf)
    (hnd : (pre ++ e :: suf).Nodup) :
    ∃ d2 mt n2,
      patch (fuel + 1) o n d =
        (d2, DomOp.removeChild p e :: (mt ++
          [match suf with
           | [] => DomOp.appendChild p d.nextId
           | a :: _ => DomOp.insertBefore p d.nextId a]), some n2) ∧
      n2.el = some d.nextId ∧
      lookupNode d d.nextId = none ∧
      kidsOf d2 p = pre ++ d.nextId :: suf ∧
      ¬ e ∈ kidsOf d2 p := by
  cases o with
  | mk otag oprops oc ok oel =>
    cases n with
    | mk ntag nprops nc nk ne0 =>
      have htag2 : ¬ otag = ntag := htag
      have hel2 : oel = some e := hel
      subst hel2
      obtain ⟨ndpre, ndcons, hdisj⟩ := List.nodup_append.mp hnd
      have hepre : ¬ e ∈ pre := fun hm => hdisj hm (List.mem_cons_self e suf)
      have hesuf : ¬ e ∈ suf := (List.nodup_cons.mp ndcons).1
      have hmem : e ∈ kidsOf d p := by
        rw [hkids]
        exact List.mem_append.mpr (Or.inr (List.mem_cons_self _ _))
      have helt : e < d.nextId := kids_lt_of_bounded d p e hb hmem
      have hpe : isElemNode d p = true := by
        obtain ⟨t, a2, l2, kids, txt, hl, hk⟩ := kidsOf_elem_of_mem d p e hmem
        unfold isElemNode
        rw [hl]
      obtain ⟨hrc, hkd1⟩ := removeChildD_spec d p e hmem
      have hb1 : domBounded (updateNode d p (mapKids (fun kids => kids.erase e))) :=
        domBounded_updateNode_f d p e _
          (fun l k hk2 => Or.inl (List.mem_of_mem_erase hk2)) helt hb
      have hpe1 : isElemNode (updateNode d p (mapKids (fun kids => kids.erase e))) p = true := by
        rw [isElemNode_updateNode_mapKids]
        exact hpe
      have hkids1 : kidsOf (updateNode d p (mapKids (fun kids => kids.erase e))) p = pre ++ suf := by
        rw [hkd1, hkids, List.erase_append_right _ hepre, List.erase_cons_head]
      obtain ⟨hMel, hMn, hMc, hMl, hMK, hMb, hMe⟩ :=
        mountOk (VNode.mk ntag nprops nc nk ne0) p (updateNode d p (mapKids (fun kids => kids.erase e))) hb1 hpe1
      have hnid : ((updateNode d p (mapKids (fun kids => kids.erase e)))).nextId = d.nextId := rfl
      rw [hnid] at hMel hMc
      rw [hkids1] at hMc
      have hsub : ∀ k, k ∈ pre ++ suf → k ∈ kidsOf d p := by
        intro k hk2
        rw [hkids]
        rcases List.mem_append.mp hk2 with h | h
        · exact List.mem_append.mpr (Or.inl h)
        · exact List.mem_append.mpr (Or.inr (List.mem_cons_of_mem _ h))
      have hnidnotin : ¬ d.nextId ∈ pre ++ suf := fun hm =>
        Nat.lt_irrefl _ (kids_lt_of_bounded d p d.nextId hb (hsub _ hm))
      have herase : (kidsOf (mount (VNode.mk ntag nprops nc nk ne0) p (updateNode d p (mapKids (fun kids => kids.erase e)))).snd.fst p).erase d.nextId = pre ++ suf := by
        rw [hMc]
        exact erase_append_self _ _ hnidnotin
      have hfresh : lookupNode d d.nextId = none := lookupNode_fresh_none d hb
      cases suf with
      | nil =>
        have hsib : nextSiblingOf d e = none := by
          unfold nextSiblingOf
          rw [hpar]
          show afterIn e (kidsOf d p) = none
          rw [hkids, afterIn_append e pre [] hepre]
          rfl
        have hres : patch (fuel + 1) (VNode.mk otag oprops oc ok (some e))
            (VNode.mk ntag nprops nc nk ne0) d =
            ((appendChildD p d.nextId (mount (VNode.mk ntag nprops nc nk ne0) p (updateNode d p (mapKids (fun kids => kids.erase e)))).snd.fst).fst,
             [DomOp.removeChild p e] ++ (mount (VNode.mk ntag nprops nc nk ne0) p (updateNode d p (mapKids (fun kids => kids.erase e)))).snd.snd ++ (appendChildD p d.nextId (mount (VNode.mk ntag nprops nc nk ne0) p (updateNode d p (mapKids (fun kids => kids.erase e)))).snd.fst).snd,
             some (mount (VNode.mk ntag nprops nc nk ne0) p (updateNode d p (mapKids (fun kids => kids.erase e)))).fst) := by
          simp only [patch, if_neg htag2, hpar, hsib, hrc, hMel]
        refine ⟨(appendChildD p d.nextId (mount (VNode.mk ntag nprops nc nk ne0) p (updateNode d p (mapKids (fun kids => kids.erase e)))).snd.fst).fst, (mount (VNode.mk ntag nprops nc nk ne0) p (updateNode d p (mapKids (fun kids => kids.erase e)))).snd.snd, (mount (VNode.mk ntag nprops nc nk ne0) p (updateNode d p (mapKids (fun kids => kids.erase e)))).fst, ?_, hMel, hfresh, ?_, ?_⟩
        · rw [hres]
          simp [List.cons_append, List.singleton_append]
          rfl
        · rw [kidsOf_appendChildD_self p d.nextId _ hMe, herase]
          simp
        · rw [kidsOf_appendChildD_self p d.nextId _ hMe, herase]
          intro hm
          rcases List.mem_append.mp hm with h | h
          · rcases List.mem_append.mp h with h2 | h2
            · exact hepre h2
            · cases h2
          · have : e = d.nextId := List.mem_singleton.mp h
            exact Nat.ne_of_lt helt this
      | cons a suf2 =>
        have hane : ¬ a = d.nextId :=
          Nat.ne_of_lt (kids_lt_of_bounded d p a hb
            (hsub a (List.mem_append.mpr (Or.inr (List.mem_cons_self _ _)))))
        have hapre : ¬ a ∈ pre := fun hm =>
          hdisj hm (List.mem_cons_of_mem _ (List.mem_cons_self _ _))
        have hsib : nextSiblingOf d e = some a := by
          unfold nextSiblingOf
          rw [hpar]
          show afterIn e (kidsOf d p) = some a
          rw [hkids, afterIn_append e pre (a :: suf2) hepre]
          rfl
        have hamem : a ∈ kidsOf (mount (VNode.mk ntag nprops nc nk ne0) p (updateNode d p (mapKids (fun kids => kids.erase e)))).snd.fst p := by
          rw [hMc]
          exact List.mem_append.mpr (Or.inl
            (List.mem_append.mpr (Or.inr (List.mem_cons_self _ _))))
        have hins : insertBeforeD p d.nextId a (mount (VNode.mk ntag nprops nc nk ne0) p (updateNode d p (mapKids (fun kids => kids.erase e)))).snd.fst =
            ((updateNode (detach (mount (VNode.mk ntag nprops nc nk ne0) p (updateNode d p (mapKids (fun kids => kids.erase e)))).snd.fst d.nextId) p (mapKids (insertIntoList d.nextId a))), [DomOp.insertBefore p d.nextId a], some ()) := by
          unfold insertBeforeD
          rw [if_pos hamem, if_neg hane]
        have hres : patch (fuel + 1) (VNode.mk otag oprops oc ok (some e))
            (VNode.mk ntag nprops nc nk ne0) d =
            ((updateNode (detach (mount (VNode.mk ntag nprops nc nk ne0) p (updateNode d p (mapKids (fun kids => kids.erase e)))).snd.fst d.nextId) p (mapKids (insertIntoList d.nextId a))),
             [DomOp.removeChild p e] ++ (mount (VNode.mk ntag nprops nc nk ne0) p (updateNode d p (mapKids (fun kids => kids.erase e)))).snd.snd ++
               [DomOp.insertBefore p d.nextId a],
             some (mount (VNode.mk ntag nprops nc nk ne0) p (updateNode d p (mapKids (fun kids => kids.erase e)))).fst) := by
          simp only [patch, if_neg htag2, hpar, hsib, hrc, hMel, hins]
          simp [Option.map]
        have helemDet : isElemNode (detach (mount (VNode.mk ntag nprops nc nk ne0) p (updateNode d p (mapKids (fun kids => kids.erase e)))).snd.fst d.nextId) p = true := by
          rw [isElemNode_detach]
          exact hMe
        have hkidsD3 : kidsOf (updateNode (detach (mount (VNode.mk ntag nprops nc nk ne0) p (updateNode d p (mapKids (fun kids => kids.erase e)))).snd.fst d.nextId) p (mapKids (insertIntoList d.nextId a))) p = pre ++ d.nextId :: a :: suf2 := by
          rw [kidsOf_updateNode_mapKids_elem _ _ _ helemDet, kidsOf_detach,
            herase, insertIntoList_at d.nextId a pre suf2 hapre]
        refine ⟨(updateNode (detach (mount (VNode.mk ntag nprops nc nk ne0) p (updateNode d p (mapKids (fun kids => kids.erase e)))).snd.fst d.nextId) p (mapKids (insertIntoList d.nextId a))), (mount (VNode.mk ntag nprops nc nk ne0) p (updateNode d p (mapKids (fun kids => kids.erase e)))).snd.snd, (mount (VNode.mk ntag nprops nc nk ne0) p (updateNode d p (mapKids (fun kids => kids.erase e)))).fst, ?_, hMel, hfresh, hkidsD3, ?_⟩
        · rw [hres]
          simp [List.cons_append, List.singleton_append]
        · rw [hkidsD3]
          intro hm
          rcases List.mem_append.mp hm with h | h
          · exact hepre h
          · rcases List.mem_cons.mp h with h2 | h2
            · exact Nat.ne_of_lt helt h2
            · exact hesuf h2

/-- A three-node document: a root holding a `span` (id 1) and an `i`
(id 2). -/
def mismatchDom : Dom :=
  Dom.mk 3 [(0, DNode.elem "root" [] [] [1, 2] none),
            (1, DNode.elem "span" [] [] [] none),
            (2, DNode.elem "i" [] [] [] none)]

def oldSpan : VNode := VNode.mk "span" [] [] none (some 1)

def newDiv : VNode := VNode.mk "div" [] [VChild.text "x"] none none

theorem patch_kind_mismatch_witness :
    (¬ oldSpan.tag = newDiv.tag) ∧
    oldSpan.el = some 1 ∧
    domBounded mismatchDom ∧
    parentOf mismatchDom 1 = some 0 ∧
    kidsOf mismatchDom 0 = [] ++ 1 :: [2] ∧
    (([] ++ 1 :: [2] : List NodeId)).Nodup ∧
    (∃ d2 mt n2,
      patch 1 oldSpan newDiv mismatchDom =
        (d2, DomOp.removeChild 0 1 ::
          (mt ++ [DomOp.insertBefore 0 mismatchDom.nextId 2]), some n2) ∧
      n2.el = some mismatchDom.nextId ∧
      lookupNode mismatchDom mismatchDom.nextId = none ∧
      kidsOf d2 0 = [] ++ mismatchDom.nextId :: [2] ∧
      ¬ 1 ∈ kidsOf d2 0) :=
  ⟨by decide, rfl, by decide, by decide, rfl, by decide,
   patch_kind_mismatch 0 oldSpan newDiv mismatchDom 0 1 [] [2]
     (by decide) rfl (by decide) (by decide) rfl (by decide)⟩

/-! ### Removals in the keyed match loop (C9) -/

/-- A root holding a `ul` (id 1) whose only live child is a `span`
(id 2). -/
def keyedC9Dom : Dom :=
  Dom.mk 3 [(0, DNode.elem "root" [] [] [1] none),
            (1, DNode.elem "ul" [] [] [2] none),
            (2, DNode.elem "span" [] [] [] none)]

def ovSpanKeyed : VNode := VNode.mk "span" [] [] (some (PVal.num 1)) (some 2)

def nvDivKeyed : VNode := VNode.mk "div" [] [] (some (PVal.num 1)) none

/-- C9 counterexample: an old keyed child whose key IS present in the
new key map still has its live node removed from the container, because
the recursive patch of the matched pair takes the kind-mismatch replace
path (`span(key=1)` vs `div(key=1)`). -/
theorem keyed_present_key_still_removed :
    mapGet (buildKeyMap [VChild.node nvDivKeyed] 0 []) (PVal.num 1) = some 0 ∧
    ovSpanKeyed.key = some (PVal.num 1) ∧
    DomOp.removeChild 1 2 ∈
      (patchKeyedChildren (patch 5) [VChild.node ovSpanKeyed]
        [VChild.node nvDivKeyed] 1 keyedC9Dom).snd.fst ∧
    ¬ 2 ∈ kidsOf (patchKeyedChildren (patch 5) [VChild.node ovSpanKeyed]
        [VChild.node nvDivKeyed] 1 keyedC9Dom).fst 1 := by decide

/-- C9 (amended): every `removeChild` operation emitted by step 2 of
the keyed diff either (a) targets, at the container, the bound node of
an old keyed child whose key is absent from the key map, or (b) comes
out of the recursive patch of a matched keyed pair.  In particular old
text children and keyless structured children never contribute a
removal of their own. -/
theorem keyedMatchLoop_removals (patchF : PatchFun) (km : List (PVal × Nat))
    (newsOrig : List VChild) (c : NodeId) :
    ∀ (olds : List VChild) (i : Nat) (news : List VChild)
      (o2n : List (Nat × Nat)) (matched : List Nat) (d : Dom) (q e : NodeId),
      DomOp.removeChild q e ∈
        (keyedMatchLoop patchF km newsOrig c olds i news o2n matched d).snd.fst →
      (q = c ∧ ∃ ov, VChild.node ov ∈ olds ∧
        (∃ k, ov.key = some k ∧ mapGet km k = none) ∧ ov.el = some e) ∨
      (∃ ov nv d2, VChild.node ov ∈ olds ∧
        (∃ k newIndex, ov.key = some k ∧ mapGet km k = some newIndex ∧
          newsOrig.get? newIndex = some (VChild.node nv)) ∧
        DomOp.removeChild q e ∈ (patchF ov nv d2).snd.fst) := by
  intro olds
  induction olds with
  | nil =>
    intro i news o2n matched d q e hmem
    cases hmem
  | cons ch rest ih =>
    intro i news o2n matched d q e hmem
    cases ch with
    | text s =>
      rcases ih (i + 1) news o2n matched d q e hmem with h | h
      · exact Or.inl ⟨h.1, h.2.choose,
          List.mem_cons_of_mem _ h.2.choose_spec.1, h.2.choose_spec.2⟩
      · obtain ⟨ov, nv, d2, hm, hk, ho⟩ := h
        exact Or.inr ⟨ov, nv, d2, List.mem_cons_of_mem _ hm, hk, ho⟩
    | node ov =>
      cases hkey : ov.key with
      | none =>
        have hmem2 : DomOp.removeChild q e ∈
            (keyedMatchLoop patchF km newsOrig c rest (i + 1) news o2n matched
              d).snd.fst := by
          have hstep : keyedMatchLoop patchF km newsOrig c
              (VChild.node ov :: rest) i news o2n matched d =
              keyedMatchLoop patchF km newsOrig c rest (i + 1) news o2n matched
                d := by
            simp only [keyedMatchLoop, hkey]
          rw [hstep] at hmem
          exact hmem
        rcases ih (i + 1) news o2n matched d q e hmem2 with h | h
        · exact Or.inl ⟨h.1, h.2.choose,
            List.mem_cons_of_mem _ h.2.choose_spec.1, h.2.choose_spec.2⟩
        · obtain ⟨ov2, nv, d2, hm, hk, ho⟩ := h
          exact Or.inr ⟨ov2, nv, d2, List.mem_cons_of_mem _ hm, hk, ho⟩
      | some k =>
        cases hget : mapGet km k with
        | some newIndex =>
          cases hnews : newsOrig.get? newIndex with
          | some chv =>
            cases chv with
            | node nv =>
              have hstep : keyedMatchLoop patchF km newsOrig c
                  (VChild.node ov :: rest) i news o2n matched d =
                  (match (patchF ov nv d).snd.snd with
                   | none => ((patchF ov nv d).fst, (patchF ov nv d).snd.fst,
                       none)
                   | some nv2 =>
                     ((keyedMatchLoop patchF km newsOrig c rest (i + 1)
                        (news.set newIndex (VChild.node nv2))
                        (o2n ++ [(i, newIndex)]) (addSet matched newIndex)
                        (patchF ov nv d).fst).fst,
                      (patchF ov nv d).snd.fst ++
                        (keyedMatchLoop patchF km newsOrig c rest (i + 1)
                          (news.set newIndex (VChild.node nv2))
                          (o2n ++ [(i, newIndex)]) (addSet matched newIndex)
                          (patchF ov nv d).fst).snd.fst,
                      (keyedMatchLoop patchF km newsOrig c rest (i + 1)
                        (news.set newIndex (VChild.node nv2))
                        (o2n ++ [(i, newIndex)]) (addSet matched newIndex)
                        (patchF ov nv d).fst).snd.snd)) := by
                simp only [keyedMatchLoop, hkey, hget, hnews]
              rw [hstep] at hmem
              cases hpr : (patchF ov nv d).snd.snd with
              | none =>
                rw [hpr] at hmem
                refine Or.inr ⟨ov, nv, d, List.mem_cons_self _ _,
                  ⟨k, newIndex, hkey, hget, hnews⟩, ?_⟩
                exact hmem
              | some nv2 =>
                rw [hpr] at hmem
                rcases List.mem_append.mp hmem with h | h
                · exact Or.inr ⟨ov, nv, d, List.mem_cons_self _ _,
                    ⟨k, newIndex, hkey, hget, hnews⟩, h⟩
                · rcases ih (i + 1) (news.set newIndex (VChild.node nv2))
                    (o2n ++ [(i, newIndex)]) (addSet matched newIndex)
                    (patchF ov nv d).fst q e h
                    with h2 | h2
                  · exact Or.inl ⟨h2.1, h2.2.choose,
                      List.mem_cons_of_mem _ h2.2.choose_spec.1,
                      h2.2.choose_spec.2⟩
                  · obtain ⟨ov2, nv3, d2, hm, hk2, ho⟩ := h2
                    exact Or.inr ⟨ov2, nv3, d2, List.mem_cons_of_mem _ hm,
                      hk2, ho⟩
            | text s2 =>
              have hstep : keyedMatchLoop patchF km newsOrig c
                  (VChild.node ov :: rest) i news o2n matched d =
                  (d, [], none) := by
                simp only [keyedMatchLoop, hkey, hget, hnews]
              rw [hstep] at hmem
              cases hmem
          | none =>
            have hstep : keyedMatchLoop patchF km newsOrig c
                (VChild.node ov :: rest) i news o2n matched d =
                (d, [], none) := by
              simp only [keyedMatchLoop, hkey, hget, hnews]
            rw [hstep] at hmem
            cases hmem
        | none =>
          cases hel : ov.el with
          | none =>
            have hstep : keyedMatchLoop patchF km newsOrig c
                (VChild.node ov :: rest) i news o2n matched d =
                (d, [], none) := by
              simp only [keyedMatchLoop, hkey, hget, hel]
            rw [hstep] at hmem
            cases hmem
          | some e2 =>
            by_cases hkid : e2 ∈ kidsOf d c
            · obtain ⟨hrc, _⟩ := removeChildD_spec d c e2 hkid
              have hstep : keyedMatchLoop patchF km newsOrig c
                  (VChild.node ov :: rest) i news o2n matched d =
                  ((keyedMatchLoop patchF km newsOrig c rest (i + 1) news o2n
                     matched (updateNode d c (mapKids
                       (fun kids => kids.erase e2)))).fst,
                   DomOp.removeChild c e2 ::
                     (keyedMatchLoop patchF km newsOrig c rest (i + 1) news o2n
                       matched (updateNode d c (mapKids
                         (fun kids => kids.erase e2)))).snd.fst,
                   (keyedMatchLoop patchF km newsOrig c rest (i + 1) news o2n
                     matched (updateNode d c (mapKids
                       (fun kids => kids.erase e2)))).snd.snd) := by
                simp only [keyedMatchLoop, hkey, hget, hel, hrc,
                  List.singleton_append]
              rw [hstep] at hmem
              rcases List.mem_cons.mp hmem with h | h
              · have hq : q = c ∧ e = e2 := by
                  cases h
                  exact ⟨rfl, rfl⟩
                exact Or.inl ⟨hq.1, ov, List.mem_cons_self _ _,
                  ⟨k, hkey, hget⟩, by rw [hel, hq.2]⟩
              · rcases ih (i + 1) news o2n matched
                  (updateNode d c (mapKids (fun kids => kids.erase e2))) q e h
                  with h2 | h2
                · exact Or.inl ⟨h2.1, h2.2.choose,
                    List.mem_cons_of_mem _ h2.2.choose_spec.1,
                    h2.2.choose_spec.2⟩
                · obtain ⟨ov2, nv3, d2, hm, hk2, ho⟩ := h2
                  exact Or.inr ⟨ov2, nv3, d2, List.mem_cons_of_mem _ hm,
                    hk2, ho⟩
            · have hrc : removeChildD c e2 d = (d, [], none) := by
                unfold removeChildD
                rw [if_neg hkid]
              have hstep : keyedMatchLoop patchF km newsOrig c
                  (VChild.node ov :: rest) i news o2n matched d =
                  (d, [], none) := by
                simp only [keyedMatchLoop, hkey, hget, hel, hrc]
              rw [hstep] at hmem
              cases hmem

/-- An old keyed child whose key is missing from the key map: the match
loop emits exactly its removal, and the theorem attributes it to the
absent-key case. -/
theorem keyedMatchLoop_removals_witness :
    DomOp.removeChild 1 2 ∈
      (keyedMatchLoop (patch 5) [] [] 1 [VChild.node ovSpanKeyed] 0 [] [] []
        keyedC9Dom).snd.fst ∧
    ((1 : NodeId) = 1 ∧ ∃ ov, VChild.node ov ∈ [VChild.node ovSpanKeyed] ∧
      (∃ k, ov.key = some k ∧ mapGet [] k = none) ∧ ov.el = some 2) :=
  ⟨by decide,
   (keyedMatchLoop_removals (patch 5) [] [] 1 [VChild.node ovSpanKeyed] 0 [] []
     [] keyedC9Dom 1 2 (by decide)).resolve_right
     (by
       intro h
       obtain ⟨ov, nv, d2, hm, ⟨k, hk, hget, hnews⟩, ho⟩ := h
       simp at hnews)⟩

end CleanVue